import Mathlib

/-!
Verification of the zookeeper-operator reconciliation core.

Strings are modelled as `List Char` so the string splitting and formatting done
by the Go source (`strings.Split`, `fmt.Sprintf`, `sort.Strings`) can be given
as executable recursive functions with provable properties.  Go maps
(`MemberSet`) are modelled as association lists whose order stands for the
(arbitrary) iteration order of the map; theorems quantify over that order.
-/

namespace ZkOp

/-- Shorthand turning a Lean string literal into the `List Char` representation
used throughout the model. -/
def strOf (s : String) : List Char := s.data

/-- `zookeeperutil.Member`: identity is the pod name (format `clusterName-ID`)
plus the kubernetes namespace this member runs in. -/
structure Member where
  name : List Char
  ns : List Char
deriving DecidableEq, Repr

/-- `zookeeperutil.MemberSet` is `map[string]*Member`; modelled as a list of
members (the list order is the map's iteration order).  The map invariant that
keys are unique appears in theorems as `Nodup` of the name list. -/
abbrev MemberSet := List Member

/-- Membership test `_, ok := ms[n]` on the name key. -/
def MemberSet.containsName (ms : MemberSet) (n : List Char) : Bool :=
  ms.any (fun m => m.name == n)

/-- `MemberSet.Diff`: the set of all members of `ms` that are not members of
`other` (compared by name, as the Go map is keyed by name). -/
def MemberSet.Diff (ms other : MemberSet) : MemberSet :=
  ms.filter (fun m => !(MemberSet.containsName other m.name))

/-- `MemberSet.IsEqual`: same cardinality and every name of `ms` occurs in
`other`. -/
def MemberSet.IsEqual (ms other : MemberSet) : Bool :=
  ms.length == other.length && ms.all (fun m => MemberSet.containsName other m.name)

/-- `MemberSet.Size`. -/
def MemberSet.Size (ms : MemberSet) : Nat := ms.length

/-- `MemberSet.PickOne` returns some member of the set; the Go code panics with
"empty" on the empty set, modelled as `none`. -/
def MemberSet.PickOne (ms : MemberSet) : Option Member := ms.head?

/-- `MemberSet.Add`: Go map assignment `ms[m.Name] = m` (replaces an existing
entry with the same name, otherwise inserts). -/
def MemberSet.Add (ms : MemberSet) (m : Member) : MemberSet :=
  if MemberSet.containsName ms m.name then
    ms.map (fun x => if x.name == m.name then m else x)
  else ms ++ [m]

/-- `MemberSet.Remove`: Go `delete(ms, name)`. -/
def MemberSet.Remove (ms : MemberSet) (n : List Char) : MemberSet :=
  ms.filter (fun m => !(m.name == n))

/-- The list of names (map keys) of a MemberSet. -/
def MemberSet.names (ms : MemberSet) : List (List Char) := ms.map Member.name

theorem containsName_iff (ms : MemberSet) (n : List Char) :
    MemberSet.containsName ms n = true ↔ n ∈ MemberSet.names ms := by
  simp [MemberSet.containsName, MemberSet.names, List.any_eq_true]

theorem containsName_false {ms : MemberSet} {n : List Char}
    (h : ¬ n ∈ MemberSet.names ms) : MemberSet.containsName ms n = false := by
  cases hc : MemberSet.containsName ms n
  · rfl
  · exact absurd ((containsName_iff ms n).mp hc) h

theorem mem_Diff {ms other : MemberSet} {m : Member} :
    m ∈ MemberSet.Diff ms other ↔ m ∈ ms ∧ ¬ m.name ∈ MemberSet.names other := by
  constructor
  · intro h
    have h' := List.mem_filter.mp h
    refine ⟨h'.1, fun hn => ?_⟩
    have hc := (containsName_iff other m.name).mpr hn
    rw [hc] at h'
    simp at h'
  · rintro ⟨h1, h2⟩
    exact List.mem_filter.mpr ⟨h1, by simp [containsName_false h2]⟩

/-- C7: `A.Diff(B).Diff(A)` is empty, `A.Diff(A)` is empty, `A.IsEqual(A)` is
true, and (given the map invariant that names are unique) `A.IsEqual(B)` holds
exactly when `A` and `B` have the same cardinality and the same set of member
names. -/
theorem C7_memberset_algebra :
    ∀ A B : MemberSet,
      MemberSet.Diff (MemberSet.Diff A B) A = [] ∧
      MemberSet.Diff A A = [] ∧
      MemberSet.IsEqual A A = true ∧
      ((MemberSet.names A).Nodup → (MemberSet.names B).Nodup →
        (MemberSet.IsEqual A B = true ↔
          (A.length = B.length ∧ ∀ n, n ∈ MemberSet.names A ↔ n ∈ MemberSet.names B))) := by
  intro A B
  refine ⟨?_, ?_, ?_, ?_⟩
  · rw [List.eq_nil_iff_forall_not_mem]
    intro m hm
    rw [mem_Diff] at hm
    obtain ⟨hm1, hm2⟩ := hm
    rw [mem_Diff] at hm1
    exact hm2 (List.mem_map_of_mem Member.name hm1.1)
  · rw [List.eq_nil_iff_forall_not_mem]
    intro m hm
    rw [mem_Diff] at hm
    exact hm.2 (List.mem_map_of_mem Member.name hm.1)
  · rw [MemberSet.IsEqual, Bool.and_eq_true]
    refine ⟨by simp, ?_⟩
    rw [List.all_eq_true]
    intro m hm
    exact (containsName_iff A m.name).mpr (List.mem_map_of_mem Member.name hm)
  · intro hA hB
    rw [MemberSet.IsEqual, Bool.and_eq_true, beq_iff_eq, List.all_eq_true]
    constructor
    · rintro ⟨hlen, hsub⟩
      refine ⟨hlen, ?_⟩
      have hsub' : MemberSet.names A ⊆ MemberSet.names B := by
        intro n hn
        simp only [MemberSet.names, List.mem_map] at hn
        obtain ⟨m, hm, rfl⟩ := hn
        exact (containsName_iff B m.name).mp (hsub m hm)
      -- With equal lengths and no duplicate names, inclusion is equality.
      have hAf : (MemberSet.names A).toFinset ⊆ (MemberSet.names B).toFinset := by
        intro n hn
        rw [List.mem_toFinset] at hn ⊢
        exact hsub' hn
      have hcard : (MemberSet.names B).toFinset.card ≤ (MemberSet.names A).toFinset.card := by
        rw [List.toFinset_card_of_nodup hA, List.toFinset_card_of_nodup hB]
        simp [MemberSet.names, hlen]
      have heq := Finset.eq_of_subset_of_card_le hAf hcard
      intro n
      rw [← List.mem_toFinset, ← List.mem_toFinset (l := MemberSet.names B), heq]
    · rintro ⟨hlen, hiff⟩
      refine ⟨hlen, fun m hm => ?_⟩
      exact (containsName_iff B m.name).mpr
        ((hiff m.name).mp (List.mem_map_of_mem Member.name hm))

/-- Witness for C7 at concrete sets, discharging the `Nodup` hypotheses. -/
theorem C7_memberset_algebra_witness :
    MemberSet.IsEqual [Member.mk (strOf "c-1") (strOf "ns"), Member.mk (strOf "c-2") (strOf "ns")]
        [Member.mk (strOf "c-2") (strOf "other"), Member.mk (strOf "c-1") (strOf "other")] = true ↔
      ((2 : Nat) = 2 ∧ ∀ n,
        n ∈ MemberSet.names [Member.mk (strOf "c-1") (strOf "ns"), Member.mk (strOf "c-2") (strOf "ns")] ↔
        n ∈ MemberSet.names [Member.mk (strOf "c-2") (strOf "other"), Member.mk (strOf "c-1") (strOf "other")]) :=
  (C7_memberset_algebra
      [Member.mk (strOf "c-1") (strOf "ns"), Member.mk (strOf "c-2") (strOf "ns")]
      [Member.mk (strOf "c-2") (strOf "other"), Member.mk (strOf "c-1") (strOf "other")]).2.2.2
    (by decide) (by decide)

/-- Go `strings.Split(s, string(c))`: splits at every occurrence of `c`.
Always returns at least one (possibly empty) segment. -/
def splitOnChar (c : Char) : List Char → List (List Char)
  | [] => [[]]
  | x :: xs =>
    if x = c then [] :: splitOnChar c xs
    else
      match splitOnChar c xs with
      | [] => [[x]]
      | s :: rest => (x :: s) :: rest

theorem splitOnChar_ne_nil (c : Char) (s : List Char) : splitOnChar c s ≠ [] := by
  induction s with
  | nil => simp [splitOnChar]
  | cons x xs ih =>
    rw [splitOnChar]
    split
    · simp
    · split
      · simp
      · simp

theorem splitOnChar_not_mem {c : Char} {s : List Char} (h : ¬ c ∈ s) :
    splitOnChar c s = [s] := by
  induction s with
  | nil => rfl
  | cons x xs ih =>
    have hx : ¬ x = c := fun he => h (he ▸ List.mem_cons_self x xs)
    have hxs : ¬ c ∈ xs := fun hm => h (List.mem_cons_of_mem x hm)
    rw [splitOnChar, if_neg hx, ih hxs]

theorem splitOnChar_append_cons {c : Char} {s : List Char} (t : List Char) (h : ¬ c ∈ s) :
    splitOnChar c (s ++ c :: t) = s :: splitOnChar c t := by
  induction s with
  | nil => simp [splitOnChar]
  | cons x xs ih =>
    have hx : ¬ x = c := fun he => h (he ▸ List.mem_cons_self x xs)
    have hxs : ¬ c ∈ xs := fun hm => h (List.mem_cons_of_mem x hm)
    rw [List.cons_append, splitOnChar, if_neg hx, ih hxs]

theorem splitOnChar_headD (c : Char) (s : List Char) :
    (splitOnChar c s).headD [] = s.takeWhile (fun x => x != c) := by
  induction s with
  | nil => rfl
  | cons x xs ih =>
    rw [splitOnChar]
    by_cases hx : x = c
    · subst hx
      simp [List.takeWhile_cons]
    · rw [if_neg hx]
      have hne := splitOnChar_ne_nil c xs
      rcases he : splitOnChar c xs with _ | ⟨s0, rest⟩
      · exact absurd he hne
      · have : (s0 :: rest).headD [] = s0 := rfl
        rw [he] at ih
        rw [this] at ih
        simp only [List.headD_cons]
        rw [List.takeWhile_cons]
        have hbx : (x != c) = true := by simp [hx]
        rw [hbx]
        simp only [if_true]
        rw [← ih]

theorem getLastD_cons_of_ne_nil {α : Type} {l : List α} (a d : α) (h : l ≠ []) :
    (a :: l).getLastD d = l.getLastD d := by
  cases l with
  | nil => exact absurd rfl h
  | cons b t => simp [List.getLastD_cons]

theorem two_le_splitOnChar_length {c : Char} {s : List Char} (h : c ∈ s) :
    2 ≤ (splitOnChar c s).length := by
  induction s with
  | nil => exact absurd h (List.not_mem_nil c)
  | cons y ys ih =>
    rw [splitOnChar]
    by_cases hy : y = c
    · rw [if_pos hy]
      have h1 : 1 ≤ (splitOnChar c ys).length := by
        cases he : splitOnChar c ys with
        | nil => exact absurd he (splitOnChar_ne_nil c ys)
        | cons a l => simp
      simpa using Nat.succ_le_succ h1
    · rw [if_neg hy]
      have hmem : c ∈ ys := by
        rcases List.mem_cons.mp h with h' | h'
        · exact absurd h'.symm hy
        · exact h'
      rcases he : splitOnChar c ys with _ | ⟨s0, rest⟩
      · exact absurd he (splitOnChar_ne_nil c _)
      · rw [he] at ih
        simpa using ih hmem

theorem splitOnChar_getLastD {c : Char} (s : List Char) {t : List Char} (h : ¬ c ∈ t) :
    (splitOnChar c (s ++ c :: t)).getLastD [] = t := by
  induction s with
  | nil =>
    simp only [List.nil_append]
    rw [splitOnChar, if_pos rfl, splitOnChar_not_mem h]
    rfl
  | cons x xs ih =>
    rw [List.cons_append, splitOnChar]
    by_cases hx : x = c
    · rw [if_pos hx]
      rw [getLastD_cons_of_ne_nil _ _ (splitOnChar_ne_nil c _)]
      exact ih
    · rw [if_neg hx]
      rcases he : splitOnChar c (xs ++ c :: t) with _ | ⟨s0, rest⟩
      · exact absurd he (splitOnChar_ne_nil c _)
      · have hrest : rest ≠ [] := by
          intro hr
          have hmem : c ∈ xs ++ c :: t := List.mem_append_right xs (List.mem_cons_self c t)
          have hlen := two_le_splitOnChar_length hmem
          rw [he, hr] at hlen
          simp at hlen
        rw [he] at ih
        rw [getLastD_cons_of_ne_nil _ _ hrest]
        rw [getLastD_cons_of_ne_nil _ _ hrest] at ih
        exact ih

theorem mem_of_mem_splitOnChar {c : Char} {s : List Char} {u : List Char} {x : Char}
    (hu : u ∈ splitOnChar c s) (hx : x ∈ u) : x ∈ s := by
  induction s generalizing u with
  | nil =>
    simp [splitOnChar] at hu
    subst hu
    exact absurd hx (List.not_mem_nil x)
  | cons y ys ih =>
    rw [splitOnChar] at hu
    by_cases hy : y = c
    · rw [if_pos hy] at hu
      rcases List.mem_cons.mp hu with h | h
      · subst h; exact absurd hx (List.not_mem_nil x)
      · exact List.mem_cons_of_mem y (ih h hx)
    · rw [if_neg hy] at hu
      rcases he : splitOnChar c ys with _ | ⟨s0, rest⟩
      · exact absurd he (splitOnChar_ne_nil c _)
      · rw [he] at hu
        rcases List.mem_cons.mp hu with h | h
        · subst h
          rcases List.mem_cons.mp hx with h' | h'
          · exact h' ▸ List.mem_cons_self y ys
          · exact List.mem_cons_of_mem y (ih (he ▸ List.mem_cons_self s0 rest) h')
        · exact List.mem_cons_of_mem y (ih (he ▸ List.mem_cons_of_mem s0 h) hx)

/-- Decimal rendering helper, structurally recursive on a fuel argument so the
kernel can evaluate it (`natToChars` always supplies enough fuel). -/
def natToCharsAux : Nat → Nat → List Char
  | 0, _ => []
  | fuel + 1, n =>
    if n < 10 then [Nat.digitChar n]
    else natToCharsAux fuel (n / 10) ++ [Nat.digitChar (n % 10)]

/-- Decimal rendering of a natural number, as Go `fmt.Sprintf("%d", n)` for the
non-negative IDs that occur here. -/
def natToChars (n : Nat) : List Char := natToCharsAux (n + 1) n

/-- The ten decimal digit characters. -/
def digits10 : List Char := ['0', '1', '2', '3', '4', '5', '6', '7', '8', '9']

theorem natToCharsAux_mem_digits :
    ∀ (fuel n : Nat), n < fuel → ∀ c ∈ natToCharsAux fuel n, c ∈ digits10 := by
  have hd : ∀ m : Nat, m < 10 → Nat.digitChar m ∈ digits10 := by decide
  intro fuel
  induction fuel with
  | zero => intro n h; omega
  | succ f ih =>
    intro n h c hc
    simp only [natToCharsAux] at hc
    by_cases h10 : n < 10
    · rw [if_pos h10] at hc
      rcases List.mem_singleton.mp hc with rfl
      exact hd n h10
    · rw [if_neg h10] at hc
      rcases List.mem_append.mp hc with h1 | h1
      · exact ih (n / 10) (by omega) c h1
      · rcases List.mem_singleton.mp h1 with rfl
        exact hd (n % 10) (Nat.mod_lt n (by omega))

theorem natToChars_mem_digits : ∀ (n : Nat), ∀ c ∈ natToChars n, c ∈ digits10 :=
  fun n => natToCharsAux_mem_digits (n + 1) n (Nat.lt_succ_self n)

theorem natToChars_ne_nil (n : Nat) : natToChars n ≠ [] := by
  rw [natToChars, natToCharsAux]
  by_cases h : n < 10
  · rw [if_pos h]; simp
  · rw [if_neg h]; simp

/-- Go `strconv.Atoi` restricted to the shapes member names use: a nonempty
all-digit string parses to its value; on anything else Atoi errors and the Go
code ignores the error, leaving the zero value. -/
def atoiNat (s : List Char) : Nat :=
  if !s.isEmpty && s.all Char.isDigit then
    s.foldl (fun a c => a * 10 + (c.toNat - 48)) 0
  else 0

theorem foldl_natToCharsAux : ∀ (fuel n : Nat), n < fuel → ∀ a : Nat,
    (natToCharsAux fuel n).foldl (fun a c => a * 10 + (c.toNat - 48)) a =
      a * 10 ^ (natToCharsAux fuel n).length + n := by
  have hd : ∀ m : Nat, m < 10 → (Nat.digitChar m).toNat = 48 + m := by decide
  intro fuel
  induction fuel with
  | zero => intro n h; omega
  | succ f ih =>
    intro n h a
    simp only [natToCharsAux]
    by_cases h10 : n < 10
    · rw [if_pos h10]
      simp [List.foldl_cons, hd n h10]
    · rw [if_neg h10]
      rw [List.foldl_append, ih (n / 10) (by omega) a]
      simp only [List.foldl_cons, List.foldl_nil, List.length_append,
        List.length_singleton, hd (n % 10) (Nat.mod_lt n (by omega))]
      rw [pow_succ, ← mul_assoc]
      omega

theorem foldl_natToChars (n : Nat) (a : Nat) :
    (natToChars n).foldl (fun a c => a * 10 + (c.toNat - 48)) a =
      a * 10 ^ (natToChars n).length + n :=
  foldl_natToCharsAux (n + 1) n (Nat.lt_succ_self n) a

theorem atoiNat_natToChars (n : Nat) : atoiNat (natToChars n) = n := by
  have hdig : (natToChars n).all Char.isDigit = true := by
    rw [List.all_eq_true]
    intro c hc
    have hmem := natToChars_mem_digits n c hc
    revert hmem
    rw [digits10]
    intro hmem
    fin_cases hmem <;> decide
  have hne : (natToChars n).isEmpty = false := by
    rw [List.isEmpty_eq_false_iff_exists_mem]
    cases he : natToChars n with
    | nil => exact absurd he (natToChars_ne_nil n)
    | cons c cs => exact ⟨c, by simp⟩
  rw [atoiNat, hne, hdig]
  simp only [Bool.not_false, Bool.and_self, if_true]
  rw [foldl_natToChars n 0]
  simp

/-- `Member.ID`: the integer parsed from the part of the name after its last
dash (`strings.Split(name, "-")`, last element, `strconv.Atoi` with the error
ignored). -/
def Member.ID (m : Member) : Nat :=
  atoiNat ((splitOnChar '-' m.name).getLastD [])

/-- `clusterNameFromMemberName`: the name up to (excluding) the last dash.
The Go code panics when the name has no dash; the model returns `[]` in that
case and theorems that depend on the address carry the dash hypothesis. -/
def clusterNameFromMemberName (mn : List Char) : List Char :=
  ((mn.reverse.dropWhile (fun c => c != '-')).tail).reverse

/-- `Member.Addr`: `<name>.<clusterName>.<namespace>.svc`. -/
def Member.Addr (m : Member) : List Char :=
  m.name ++ '.' :: clusterNameFromMemberName m.name ++ '.' :: m.ns ++ strOf ".svc"

/-- `MemberSet.MaxMemberID`: largest parsed ID over the set, 0 on empty. -/
def MemberSet.MaxMemberID (ms : MemberSet) : Nat :=
  ms.foldl (fun acc m => max acc (Member.ID m)) 0

/-- `MemberSet.ClientHostList`: `addr:2181` per member, in map iteration
order; the Go code does NOT sort this list. -/
def MemberSet.ClientHostList (ms : MemberSet) : List (List Char) :=
  ms.map (fun m => Member.Addr m ++ strOf ":2181")

/-- One ensemble config line
`server.<ID>=<addr>:2888:3888:<role>;<addr>:2181`. -/
def serverLine (role : List Char) (m : Member) : List Char :=
  strOf "server." ++ natToChars (Member.ID m) ++ '=' :: Member.Addr m ++
    strOf ":2888:3888:" ++ role ++ ';' :: Member.Addr m ++ strOf ":2181"

/-- Byte-wise lexicographic order on strings, as Go `sort.Strings` compares. -/
def lexLe : List Char → List Char → Bool
  | [], _ => true
  | _ :: _, [] => false
  | a :: as, b :: bs =>
    if a.toNat < b.toNat then true
    else if b.toNat < a.toNat then false
    else lexLe as bs

def lexR (s t : List Char) : Prop := lexLe s t = true

instance : DecidableRel lexR := fun s t => inferInstanceAs (Decidable (lexLe s t = true))

theorem lexLe_cons {a b : Char} {as bs : List Char} :
    lexLe (a :: as) (b :: bs) = true ↔
      a.toNat < b.toNat ∨ (a.toNat = b.toNat ∧ lexLe as bs = true) := by
  rw [lexLe]
  by_cases h1 : a.toNat < b.toNat
  · simp [h1]
  · by_cases h2 : b.toNat < a.toNat
    · rw [if_neg h1, if_pos h2]
      simp only [Bool.false_eq_true, false_iff]
      rintro (h | ⟨h, _⟩) <;> omega
    · have heq : a.toNat = b.toNat := by omega
      rw [if_neg h1, if_neg h2]
      simp [heq, h1]

theorem char_toNat_inj {a b : Char} (h : a.toNat = b.toNat) : a = b := by
  have := Char.ofNat_toNat a
  rw [h, Char.ofNat_toNat b] at this
  exact this.symm

instance : IsTotal (List Char) lexR where
  total := by
    intro s
    induction s with
    | nil => intro t; left; rfl
    | cons a as ih =>
      intro t
      cases t with
      | nil => right; rfl
      | cons b bs =>
        rcases Nat.lt_trichotomy a.toNat b.toNat with h | h | h
        · left; exact lexLe_cons.mpr (Or.inl h)
        · rcases ih bs with h' | h'
          · left; exact lexLe_cons.mpr (Or.inr ⟨h, h'⟩)
          · right; exact lexLe_cons.mpr (Or.inr ⟨h.symm, h'⟩)
        · right; exact lexLe_cons.mpr (Or.inl h)

instance : IsTrans (List Char) lexR where
  trans := by
    intro s
    induction s with
    | nil => intro t u _ _; exact rfl
    | cons a as ih =>
      intro t u h1 h2
      cases t with
      | nil => exact absurd h1 (by rw [lexR, lexLe]; simp)
      | cons b bs =>
        cases u with
        | nil => exact absurd h2 (by rw [lexR, lexLe]; simp)
        | cons c cs =>
          rcases lexLe_cons.mp h1 with hab | ⟨hab, hab'⟩ <;>
            rcases lexLe_cons.mp h2 with hbc | ⟨hbc, hbc'⟩
          · exact lexLe_cons.mpr (Or.inl (by omega))
          · exact lexLe_cons.mpr (Or.inl (by omega))
          · exact lexLe_cons.mpr (Or.inl (by omega))
          · exact lexLe_cons.mpr (Or.inr ⟨by omega, ih bs cs hab' hbc'⟩)

instance : IsAntisymm (List Char) lexR where
  antisymm := by
    intro s
    induction s with
    | nil =>
      intro t _ h2
      cases t with
      | nil => rfl
      | cons b bs => exact absurd h2 (by rw [lexR, lexLe]; simp)
    | cons a as ih =>
      intro t h1 h2
      cases t with
      | nil => exact absurd h1 (by rw [lexR, lexLe]; simp)
      | cons b bs =>
        rcases lexLe_cons.mp h1 with hab | ⟨hab, hab'⟩ <;>
          rcases lexLe_cons.mp h2 with hba | ⟨hba, hba'⟩ <;>
          try omega
        rw [char_toNat_inj hab, ih bs hab' hba']

/-- Go `sort.Strings`, realized as insertion sort (the result is characterized
by sortedness and permutation, so the algorithm choice is immaterial). -/
def sortStrings (l : List (List Char)) : List (List Char) := List.insertionSort lexR l

/-- `MemberSet.ClusterConfig`: one `participant` line per member (the Go code
hard-codes the participant role here), then sorted. -/
def MemberSet.ClusterConfig (ms : MemberSet) : List (List Char) :=
  sortStrings (ms.map (serverLine (strOf "participant")))

theorem getLastD_append_singleton {α : Type} (l : List α) (a d : α) :
    (l ++ [a]).getLastD d = a := by
  induction l with
  | nil => rfl
  | cons x xs ih =>
    rw [List.cons_append, getLastD_cons_of_ne_nil _ _ (by simp), ih]

/-- `NewZookeeperPod`'s `ZOO_SERVERS` value (k8sutil.go): the existing cluster
config lines plus one line for the pod's own member, whose role is
`participant` for the "seed" and "replacement" join states and `observer` for
any other state (in particular "new"). -/
def zooServers (existingCluster : List (List Char)) (m : Member) (state : List Char) :
    List (List Char) :=
  existingCluster ++
    [if state == strOf "seed" || state == strOf "replacement" then
      serverLine (strOf "participant") m
    else serverLine (strOf "observer") m]

/-- The role field of an ensemble config line: the last `:`-separated field of
the part before the `;`. -/
def lineRole (line : List Char) : List Char :=
  (splitOnChar ':' ((splitOnChar ';' line).headD [])).getLastD []

theorem lineRole_serverLine (role : List Char) (m : Member)
    (hr1 : ¬ ';' ∈ role) (hr2 : ¬ ':' ∈ role)
    (ha1 : ¬ ';' ∈ Member.Addr m) :
    lineRole (serverLine role m) = role := by
  have hdig : ∀ c ∈ natToChars (Member.ID m), c ∈ digits10 := natToChars_mem_digits _
  have hline : serverLine role m =
      (strOf "server." ++ natToChars (Member.ID m) ++ '=' :: Member.Addr m ++
        strOf ":2888:3888:" ++ role) ++ ';' :: (Member.Addr m ++ strOf ":2181") := by
    simp [serverLine, List.append_assoc]
  have hdig' : ¬ ';' ∈ natToChars (Member.ID m) := by
    intro h
    have := hdig ';' h
    revert this; decide
  have hP : ¬ ';' ∈ (strOf "server." ++ natToChars (Member.ID m) ++ '=' :: Member.Addr m ++
      strOf ":2888:3888:" ++ role) := by
    intro h
    rcases List.mem_append.mp h with h | h
    · rcases List.mem_append.mp h with h | h
      · rcases List.mem_append.mp h with h | h
        · rcases List.mem_append.mp h with h | h
          · revert h; decide
          · exact hdig' h
        · rcases List.mem_cons.mp h with h | h
          · exact absurd h (by decide)
          · exact ha1 h
      · revert h; decide
    · exact hr1 h
  have hS2 : strOf ":2888:3888:" = strOf ":2888:3888" ++ [':'] := by decide
  have hPsplit : (strOf "server." ++ natToChars (Member.ID m) ++ '=' :: Member.Addr m ++
      strOf ":2888:3888:" ++ role) =
      (strOf "server." ++ natToChars (Member.ID m) ++ '=' :: Member.Addr m ++
        strOf ":2888:3888") ++ ':' :: role := by
    rw [hS2]
    simp [List.append_assoc]
  rw [lineRole, hline, splitOnChar_append_cons _ hP, List.headD_cons, hPsplit,
    splitOnChar_getLastD _ hr2]

/-- C6 (amended): `ClusterConfig` (ToEnsembleConfig) sorts its output, so for
any two MemberSets holding the same members in any iteration orders the
serialized config is identical; `ClientHostList` (ClientEndpoints), by
contrast, is emitted in raw iteration order without sorting, so it is not
order-independent (see the counterexample). -/
theorem C6_clusterconfig_order_independent :
    ∀ A B : MemberSet, A.Perm B →
      MemberSet.ClusterConfig A = MemberSet.ClusterConfig B ∧
      List.Sorted lexR (MemberSet.ClusterConfig A) := by
  intro A B hp
  refine ⟨?_, List.sorted_insertionSort lexR _⟩
  apply List.eq_of_perm_of_sorted (r := lexR)
  · exact (List.perm_insertionSort lexR _).trans
      (((hp.map _)).trans (List.perm_insertionSort lexR _).symm)
  · exact List.sorted_insertionSort lexR _
  · exact List.sorted_insertionSort lexR _

/-- Witness for C6 (amended) at two iteration orders of the same two-member
set. -/
theorem C6_clusterconfig_order_independent_witness :
    MemberSet.ClusterConfig
        [Member.mk (strOf "c-1") (strOf "ns"), Member.mk (strOf "c-2") (strOf "ns")] =
      MemberSet.ClusterConfig
        [Member.mk (strOf "c-2") (strOf "ns"), Member.mk (strOf "c-1") (strOf "ns")] :=
  (C6_clusterconfig_order_independent
    [Member.mk (strOf "c-1") (strOf "ns"), Member.mk (strOf "c-2") (strOf "ns")]
    [Member.mk (strOf "c-2") (strOf "ns"), Member.mk (strOf "c-1") (strOf "ns")]
    (List.Perm.swap (Member.mk (strOf "c-2") (strOf "ns"))
      (Member.mk (strOf "c-1") (strOf "ns")) [])).1

/-- C6 counterexample: the claim says BOTH ClientHostList and ClusterConfig
return sorted, order-independent lists.  Two MemberSets with the same members
(IsEqual) but different iteration orders produce different ClientHostList
outputs, because the Go code never sorts that list. -/
theorem C6_counterexample :
    MemberSet.IsEqual
        [Member.mk (strOf "c-1") (strOf "ns"), Member.mk (strOf "c-2") (strOf "ns")]
        [Member.mk (strOf "c-2") (strOf "ns"), Member.mk (strOf "c-1") (strOf "ns")] = true ∧
      MemberSet.ClientHostList
          [Member.mk (strOf "c-1") (strOf "ns"), Member.mk (strOf "c-2") (strOf "ns")] ≠
        MemberSet.ClientHostList
          [Member.mk (strOf "c-2") (strOf "ns"), Member.mk (strOf "c-1") (strOf "ns")] := by
  decide

/-- C5 (amended): the participant/observer role distinction is made by
`NewZookeeperPod`'s own ZOO_SERVERS line, not by `ClusterConfig`: the joining
pod's line carries role `observer` for any state other than "seed" and
"replacement" (in particular "new") and `participant` for those two, while
`ClusterConfig` emits role `participant` for every member unconditionally. -/
theorem C5_roles :
    (∀ (ex : List (List Char)) (m : Member) (state : List Char),
        ¬ ';' ∈ Member.Addr m →
        state ≠ strOf "seed" → state ≠ strOf "replacement" →
        lineRole ((zooServers ex m state).getLastD []) = strOf "observer") ∧
    (∀ (ex : List (List Char)) (m : Member) (state : List Char),
        ¬ ';' ∈ Member.Addr m →
        (state = strOf "seed" ∨ state = strOf "replacement") →
        lineRole ((zooServers ex m state).getLastD []) = strOf "participant") ∧
    (∀ ms : MemberSet, (∀ m ∈ ms, ¬ ';' ∈ Member.Addr m) →
        ∀ line ∈ MemberSet.ClusterConfig ms, lineRole line = strOf "participant") := by
  refine ⟨?_, ?_, ?_⟩
  · intro ex m state ha1 hs1 hs2
    rw [zooServers, getLastD_append_singleton]
    rw [if_neg (by simp [hs1, hs2])]
    exact lineRole_serverLine _ m (by decide) (by decide) ha1
  · intro ex m state ha1 hs
    rw [zooServers, getLastD_append_singleton]
    rw [if_pos (by rcases hs with h | h <;> simp [h])]
    exact lineRole_serverLine _ m (by decide) (by decide) ha1
  · intro ms hms line hline
    rw [MemberSet.ClusterConfig, sortStrings, List.mem_insertionSort] at hline
    rcases List.mem_map.mp hline with ⟨m, hm, rfl⟩
    exact lineRole_serverLine _ m (by decide) (by decide) (hms m hm)

/-- Witness for C5 (amended) at a concrete member joining with state "new". -/
theorem C5_roles_witness :
    lineRole ((zooServers [] (Member.mk (strOf "c-1") (strOf "ns")) (strOf "new")).getLastD [])
      = strOf "observer" :=
  C5_roles.1 [] (Member.mk (strOf "c-1") (strOf "ns")) (strOf "new")
    (by decide) (by decide) (by decide)

/-- C5 counterexample: `ClusterConfig` hard-codes the participant role; the
line it produces for any member—including one whose pod is being created with
join state "new"—carries role `participant`, never `observer`, contradicting
the claim that ToEnsembleConfig emits `observer` for "new" members. -/
theorem C5_counterexample :
    MemberSet.ClusterConfig [Member.mk (strOf "c-1") (strOf "ns")] =
      [serverLine (strOf "participant") (Member.mk (strOf "c-1") (strOf "ns"))] ∧
    lineRole (serverLine (strOf "participant") (Member.mk (strOf "c-1") (strOf "ns"))) =
      strOf "participant" ∧
    strOf "participant" ≠ strOf "observer" := by
  decide

/-- The member-name extraction `Cluster.updateMembers` performs on one config
line: `strings.Split(line, ";")[1]`, then the client host before the first
`:`, then the first `.`-separated label. -/
def parseMemberName (line : List Char) : List Char :=
  (splitOnChar '.' ((splitOnChar ':' ((splitOnChar ';' line).getD 1 [])).headD [])).headD []

/-- `Cluster.updateMembers`: rebuild the MemberSet from the ensemble's config
lines; each parsed client name is inserted with the cluster's namespace. -/
def updateMembers (lines : List (List Char)) (nsp : List Char) : MemberSet :=
  lines.foldl (fun ms line => MemberSet.Add ms (Member.mk (parseMemberName line) nsp)) []

theorem mem_clusterName {x : Char} {n : List Char}
    (h : x ∈ clusterNameFromMemberName n) : x ∈ n := by
  rw [clusterNameFromMemberName, List.mem_reverse] at h
  have h1 := (List.tail_sublist _).subset h
  have h2 := (List.dropWhile_sublist _).subset h1
  exact List.mem_reverse.mp h2

theorem takeWhile_cons_true {p : Char → Bool} {x : Char} (t : List Char) (h : p x = true) :
    (x :: t).takeWhile p = x :: t.takeWhile p := by
  simp [List.takeWhile_cons, h]

theorem takeWhile_cons_false {p : Char → Bool} {x : Char} (t : List Char) (h : p x = false) :
    (x :: t).takeWhile p = [] := by
  simp [List.takeWhile_cons, h]

theorem takeWhile_append_of_all {p : Char → Bool} {s : List Char} (t : List Char)
    (h : ∀ x ∈ s, p x = true) : (s ++ t).takeWhile p = s ++ t.takeWhile p := by
  induction s with
  | nil => simp
  | cons x xs ih =>
    rw [List.cons_append, takeWhile_cons_true _ (h x (List.mem_cons_self x xs)),
      ih (fun y hy => h y (List.mem_cons_of_mem x hy)), List.cons_append]

theorem not_mem_Addr {m : Member} (hn1 : ¬ ';' ∈ m.name) (hns : ¬ ';' ∈ m.ns) :
    ¬ ';' ∈ Member.Addr m := by
  intro h
  rw [Member.Addr] at h
  rcases List.mem_append.mp h with h | h
  · rcases List.mem_append.mp h with h | h
    · rcases List.mem_append.mp h with h | h
      · exact hn1 h
      · rcases List.mem_cons.mp h with h | h
        · exact absurd h (by decide)
        · exact hn1 (mem_clusterName h)
    · rcases List.mem_cons.mp h with h | h
      · exact absurd h (by decide)
      · exact hns h
  · revert h; decide

theorem parseMemberName_serverLine (role : List Char) (m : Member)
    (hr : ¬ ';' ∈ role)
    (hn1 : ¬ ';' ∈ m.name) (hn2 : ¬ ':' ∈ m.name) (hn3 : ¬ '.' ∈ m.name)
    (hns : ¬ ';' ∈ m.ns) :
    parseMemberName (serverLine role m) = m.name := by
  have haddr : ¬ ';' ∈ Member.Addr m := not_mem_Addr hn1 hns
  have hdig' : ¬ ';' ∈ natToChars (Member.ID m) := by
    intro h
    have := natToChars_mem_digits (Member.ID m) ';' h
    revert this; decide
  have hline : serverLine role m =
      (strOf "server." ++ natToChars (Member.ID m) ++ '=' :: Member.Addr m ++
        strOf ":2888:3888:" ++ role) ++ ';' :: (Member.Addr m ++ strOf ":2181") := by
    simp [serverLine, List.append_assoc]
  have hP : ¬ ';' ∈ (strOf "server." ++ natToChars (Member.ID m) ++ '=' :: Member.Addr m ++
      strOf ":2888:3888:" ++ role) := by
    intro h
    rcases List.mem_append.mp h with h | h
    · rcases List.mem_append.mp h with h | h
      · rcases List.mem_append.mp h with h | h
        · rcases List.mem_append.mp h with h | h
          · revert h; decide
          · exact hdig' h
        · rcases List.mem_cons.mp h with h | h
          · exact absurd h (by decide)
          · exact haddr h
      · revert h; decide
    · exact hr h
  have hQ : ¬ ';' ∈ (Member.Addr m ++ strOf ":2181") := by
    intro h
    rcases List.mem_append.mp h with h | h
    · exact haddr h
    · revert h; decide
  rw [parseMemberName, hline, splitOnChar_append_cons _ hP, splitOnChar_not_mem hQ]
  have hgetD : ((strOf "server." ++ natToChars (Member.ID m) ++ '=' :: Member.Addr m ++
      strOf ":2888:3888:" ++ role) ::
        [Member.Addr m ++ strOf ":2181"]).getD 1 ([] : List Char) =
      Member.Addr m ++ strOf ":2181" := rfl
  rw [hgetD, splitOnChar_headD ':']
  have hflat : Member.Addr m ++ strOf ":2181" =
      m.name ++ '.' :: (clusterNameFromMemberName m.name ++
        '.' :: (m.ns ++ (strOf ".svc" ++ strOf ":2181"))) := by
    simp [Member.Addr, List.append_assoc]
  rw [hflat]
  have hname_colon : ∀ x ∈ m.name, (x != ':') = true := by
    intro x hx
    rw [bne_iff_ne]
    intro he
    exact hn2 (he ▸ hx)
  rw [takeWhile_append_of_all _ hname_colon, takeWhile_cons_true _ (by decide)]
  rw [splitOnChar_headD '.']
  have hname_dot : ∀ x ∈ m.name, (x != '.') = true := by
    intro x hx
    rw [bne_iff_ne]
    intro he
    exact hn3 (he ▸ hx)
  rw [takeWhile_append_of_all _ hname_dot, takeWhile_cons_false _ (by decide)]
  simp

theorem mem_names_Add (ms : MemberSet) (m : Member) (n : List Char) :
    n ∈ MemberSet.names (MemberSet.Add ms m) ↔ n = m.name ∨ n ∈ MemberSet.names ms := by
  rw [MemberSet.Add]
  by_cases hc : MemberSet.containsName ms m.name = true
  · rw [if_pos hc]
    have hmem := (containsName_iff ms m.name).mp hc
    simp only [MemberSet.names, List.map_map, List.mem_map, Function.comp_apply] at hmem ⊢
    constructor
    · rintro ⟨a, ha, han⟩
      by_cases ha' : a.name = m.name
      · rw [if_pos (by simp [ha'])] at han
        exact Or.inl han.symm
      · rw [if_neg (by simp [ha'])] at han
        exact Or.inr ⟨a, ha, han⟩
    · rintro (rfl | ⟨a, ha, han⟩)
      · rcases hmem with ⟨a, ha, han⟩
        exact ⟨a, ha, by rw [if_pos (by simp [han])]⟩
      · by_cases ha' : a.name = m.name
        · exact ⟨a, ha, by rw [if_pos (by simp [ha'])]; rw [← han, ha']⟩
        · exact ⟨a, ha, by rw [if_neg (by simp [ha'])]; exact han⟩
  · rw [if_neg hc]
    simp only [MemberSet.names, List.map_append, List.mem_append, List.map_cons,
      List.map_nil, List.mem_singleton]
    constructor
    · rintro (h | h)
      · exact Or.inr h
      · exact Or.inl h
    · rintro (h | h)
      · exact Or.inr h
      · exact Or.inl h

theorem mem_names_updateMembers_aux (lines : List (List Char)) (nsp : List Char)
    (n : List Char) : ∀ acc : MemberSet,
    (n ∈ MemberSet.names (lines.foldl
        (fun ms line => MemberSet.Add ms (Member.mk (parseMemberName line) nsp)) acc) ↔
      n ∈ MemberSet.names acc ∨ ∃ l ∈ lines, parseMemberName l = n) := by
  induction lines with
  | nil => intro acc; simp
  | cons l ls ih =>
    intro acc
    rw [List.foldl_cons, ih, mem_names_Add]
    constructor
    · rintro ((h | h) | h)
      · exact Or.inr ⟨l, List.mem_cons_self l ls, h.symm⟩
      · exact Or.inl h
      · rcases h with ⟨l', hl', hp⟩
        exact Or.inr ⟨l', List.mem_cons_of_mem l hl', hp⟩
    · rintro (h | ⟨l', hl', hp⟩)
      · exact Or.inl (Or.inr h)
      · rcases List.mem_cons.mp hl' with rfl | hl''
        · exact Or.inl (Or.inl hp.symm)
        · exact Or.inr ⟨l', hl'', hp⟩

theorem mem_names_updateMembers (lines : List (List Char)) (nsp : List Char) (n : List Char) :
    n ∈ MemberSet.names (updateMembers lines nsp) ↔ ∃ l ∈ lines, parseMemberName l = n := by
  rw [updateMembers, mem_names_updateMembers_aux]
  simp [MemberSet.names]

/-- C10 (amended): the recovery parser of `updateMembers` inverts
`ClusterConfig` for member sets whose names contain a dash, no dot, and — the
amendment — no colon and no semicolon, and whose shared namespace contains no
semicolon: the rebuilt MemberSet has exactly the original member names. -/
theorem C10_roundtrip :
    ∀ (ms : MemberSet) (nsp : List Char),
      (∀ m ∈ ms, '-' ∈ m.name ∧ ¬ '.' ∈ m.name ∧ ¬ ':' ∈ m.name ∧ ¬ ';' ∈ m.name ∧
        m.ns = nsp) →
      ¬ ';' ∈ nsp →
      ∀ n, (n ∈ MemberSet.names (updateMembers (MemberSet.ClusterConfig ms) nsp) ↔
        n ∈ MemberSet.names ms) := by
  intro ms nsp hms hnsp n
  rw [mem_names_updateMembers]
  constructor
  · rintro ⟨l, hl, hp⟩
    rw [MemberSet.ClusterConfig, sortStrings, List.mem_insertionSort] at hl
    rcases List.mem_map.mp hl with ⟨m, hm, rfl⟩
    obtain ⟨_, hdot, hcolon, hsemi, hns⟩ := hms m hm
    rw [parseMemberName_serverLine _ m (by decide) hsemi hcolon hdot (hns ▸ hnsp)] at hp
    exact hp ▸ List.mem_map_of_mem Member.name hm
  · intro hn
    simp only [MemberSet.names, List.mem_map] at hn
    rcases hn with ⟨m, hm, rfl⟩
    obtain ⟨_, hdot, hcolon, hsemi, hns⟩ := hms m hm
    refine ⟨serverLine (strOf "participant") m, ?_, ?_⟩
    · rw [MemberSet.ClusterConfig, sortStrings, List.mem_insertionSort]
      exact List.mem_map_of_mem _ hm
    · exact parseMemberName_serverLine _ m (by decide) hsemi hcolon hdot (hns ▸ hnsp)

/-- Witness for C10 (amended) at a concrete two-member set. -/
theorem C10_roundtrip_witness :
    strOf "c-2" ∈ MemberSet.names (updateMembers
      (MemberSet.ClusterConfig
        [Member.mk (strOf "c-1") (strOf "ns"), Member.mk (strOf "c-2") (strOf "ns")])
      (strOf "ns")) ↔
    strOf "c-2" ∈ MemberSet.names
      [Member.mk (strOf "c-1") (strOf "ns"), Member.mk (strOf "c-2") (strOf "ns")] :=
  C10_roundtrip
    [Member.mk (strOf "c-1") (strOf "ns"), Member.mk (strOf "c-2") (strOf "ns")]
    (strOf "ns") (by decide) (by decide) (strOf "c-2")

/-- C10 counterexample: the claim only requires a dash-separated suffix, no
dot, and a shared namespace.  The name `a:b-1` satisfies all of that, yet the
parser truncates at the first `:`, rebuilding the name `a` instead. -/
theorem C10_counterexample :
    MemberSet.names (updateMembers
        (MemberSet.ClusterConfig [Member.mk (strOf "a:b-1") (strOf "ns")]) (strOf "ns")) =
      [strOf "a"] ∧
    '-' ∈ strOf "a:b-1" ∧ ¬ '.' ∈ strOf "a:b-1" ∧ strOf "a" ≠ strOf "a:b-1" := by
  decide

/-- Outcome oracles for the external collaborators a reconcile pass calls
(kubernetes pod deletion/creation, the zookeeper ensemble client, the upgrade
step).  A theorem quantifying over `Env` covers every combination of external
success and failure. -/
structure Env where
  removePodOk : List Char → Bool
  createPodOk : Bool
  reconfigOk : Bool
  upgradeOk : Bool
  zkConfig : Option (List (List Char))

/-- Observable side effects of a pass, in order of occurrence. -/
inductive Eff where
  | getConfig (ok : Bool)
  | reconfig (ok : Bool)
  | removePod (name : List Char) (wait : Bool)
  | createPod (name : List Char) (state : List Char)
  | memberAdd (name : List Char)
  | memberRemove (name : List Char)
  | clearScaling
  | setScalingUp (a b : Int)
  | setScalingDown (a b : Int)
  | upgradeVersionTo (v : List Char)
  | upgradeMember (name : List Char)
  | clearUpgrading
  | setVersion (v : List Char)
  | setReady
deriving DecidableEq, Repr

/-- The errors a pass can return.  `emptySet` stands for the Go panic in
`MemberSet.PickOne` on an empty set. -/
inductive ZkErr where
  | lostQuorum
  | getConfigFail
  | reconfigFail
  | removePodFail (name : List Char)
  | createPodFail (name : List Char)
  | upgradeFail (name : List Char)
  | emptySet
deriving DecidableEq, Repr

/-- The prune loop at the top of `reconcileMembers`: force-remove every
unknown pod (`removePod(m.Name, true)`), aborting on the first deletion
failure. -/
def pruneUnknowns (env : Env) : List Member → List Eff × Option ZkErr
  | [] => ([], none)
  | m :: rest =>
    if env.removePodOk m.name then
      match pruneUnknowns env rest with
      | (tr2, e2) => (Eff.removePod m.name true :: tr2, e2)
    else ([Eff.removePod m.name true], some (ZkErr.removePodFail m.name))

/-- `Cluster.addMember`: insert the member, then create its pod; a pod
creation failure is returned but the member stays inserted. -/
def addMember (env : Env) (members : MemberSet) (toAdd : Member) (state : List Char) :
    List Eff × MemberSet × Option ZkErr :=
  ([Eff.memberAdd toAdd.name, Eff.createPod toAdd.name state],
    MemberSet.Add members toAdd,
    if env.createPodOk then none else some (ZkErr.createPodFail toAdd.name))

/-- `Cluster.removeMember`: drop the member from the set; on a scaling event
push the shrunk config to the ensemble first, where a reconfigure failure is
only logged (the Go code does not return there); then delete the pod.  Only
the pod deletion failure is propagated. -/
def removeMember (env : Env) (members : MemberSet) (toRemove : Member)
    (isScalingEvent : Bool) : List Eff × MemberSet × Option ZkErr :=
  (Eff.memberRemove toRemove.name ::
      ((if isScalingEvent then [Eff.reconfig env.reconfigOk] else []) ++
        [Eff.removePod toRemove.name isScalingEvent]),
    MemberSet.Remove members toRemove.name,
    if env.removePodOk toRemove.name then none
    else some (ZkErr.removePodFail toRemove.name))

/-- `Cluster.replaceDeadMember`: graceful remove (not a scaling event, so no
reconfigure), then re-add the same member with state "replacement". -/
def replaceDeadMember (env : Env) (members : MemberSet) (toReplace : Member) :
    List Eff × MemberSet × Option ZkErr :=
  match removeMember env members toReplace false with
  | (tr1, members1, some err) => (tr1, members1, some err)
  | (tr1, members1, none) =>
    match addMember env members1 toReplace (strOf "replacement") with
    | (tr2, members2, e) => (tr1 ++ tr2, members2, e)

/-- `Cluster.newMember`: named `<clusterName>-<MaxMemberID()+1>`. -/
def newMember (clusterName nsp : List Char) (members : MemberSet) : Member :=
  Member.mk (clusterName ++ '-' :: natToChars (MemberSet.MaxMemberID members + 1)) nsp

/-- `Cluster.addOneMember`. -/
def addOneMember (env : Env) (members : MemberSet) (clusterName nsp : List Char)
    (specSize : Int) : List Eff × MemberSet × Option ZkErr :=
  match addMember env members (newMember clusterName nsp members) (strOf "new") with
  | (tr, m2, e) => (Eff.setScalingUp members.length specSize :: tr, m2, e)

/-- `Cluster.removeOneMember`: scaling-down condition, then remove `PickOne`. -/
def removeOneMember (env : Env) (members : MemberSet) (specSize : Int) :
    List Eff × MemberSet × Option ZkErr :=
  match MemberSet.PickOne members with
  | none => ([Eff.setScalingDown members.length specSize], members, some ZkErr.emptySet)
  | some m =>
    match removeMember env members m true with
    | (tr, m2, e) => (Eff.setScalingDown members.length specSize :: tr, m2, e)

/-- `Cluster.resize`. -/
def resize (env : Env) (members : MemberSet) (clusterName nsp : List Char)
    (specSize : Int) : List Eff × MemberSet × Option ZkErr :=
  if (members.length : Int) = specSize then ([], members, none)
  else if (members.length : Int) < specSize then
    addOneMember env members clusterName nsp specSize
  else removeOneMember env members specSize

/-- `Cluster.reconcileMembers`. -/
def reconcileMembers (env : Env) (members running : MemberSet)
    (clusterName nsp : List Char) (specSize : Int) :
    List Eff × MemberSet × Option ZkErr :=
  let unknown := MemberSet.Diff running members
  match pruneUnknowns env unknown with
  | (tr0, some err) => (tr0, members, some err)
  | (tr0, none) =>
    let L := MemberSet.Diff running unknown
    if L.length = members.length then
      match resize env members clusterName nsp specSize with
      | (tr, m2, e) => (tr0 ++ tr, m2, e)
    else if L.length < members.length / 2 + 1 then
      (tr0, members, some ZkErr.lostQuorum)
    else
      match MemberSet.PickOne (MemberSet.Diff members L) with
      | none => (tr0, members, some ZkErr.emptySet)
      | some dead =>
        match replaceDeadMember env members dead with
        | (tr, m2, e) => (tr0 ++ tr, m2, e)

/-- The slice of a kubernetes pod the reconciler reads: name, namespace, and
the `zookeeper.version` annotation (`GetZookeeperVersion`). -/
structure Pod where
  name : List Char
  ns : List Char
  version : List Char
deriving DecidableEq, Repr

/-- `api.ClusterSpec` (size and version are all the engine reads). -/
structure ClusterSpec where
  size : Int
  version : List Char
deriving DecidableEq, Repr

/-- `podsToMemberSet`. -/
def podsToMemberSet (pods : List Pod) : MemberSet :=
  pods.foldl (fun ms p => MemberSet.Add ms (Member.mk p.name p.ns)) []

/-- `pickOneOldMember`: first pod in listing order whose recorded version
differs from the target version. -/
def pickOneOldMember (pods : List Pod) (newVersion : List Char) : Option Member :=
  match pods with
  | [] => none
  | p :: rest =>
    if p.version == newVersion then pickOneOldMember rest newVersion
    else some (Member.mk p.name p.ns)

/-- `needUpgrade`. -/
def needUpgrade (pods : List Pod) (cs : ClusterSpec) : Bool :=
  (pods.length : Int) == cs.size && (pickOneOldMember pods cs.version).isSome

/-- The scaling/upgrade tail of `Cluster.reconcile` (after the ensemble-config
branch did not return): run `reconcileMembers` if pods and membership disagree
or the size is off; else clear Scaling, run one upgrade step if needed; else
clear Upgrading, record the version and set Ready. -/
def reconcileTail (env : Env) (members running : MemberSet)
    (clusterName nsp : List Char) (sp : ClusterSpec) (pods : List Pod) :
    List Eff × MemberSet × Option ZkErr :=
  if ¬ MemberSet.IsEqual running members = true ∨ (members.length : Int) ≠ sp.size then
    reconcileMembers env members running clusterName nsp sp.size
  else if needUpgrade pods sp then
    match pickOneOldMember pods sp.version with
    | some m =>
      ([Eff.clearScaling, Eff.upgradeVersionTo sp.version, Eff.upgradeMember m.name],
        members, if env.upgradeOk then none else some (ZkErr.upgradeFail m.name))
    | none => ([Eff.clearScaling, Eff.upgradeVersionTo sp.version], members, none)
  else
    ([Eff.clearScaling, Eff.clearUpgrading, Eff.setVersion sp.version, Eff.setReady],
      members, none)

/-- `Cluster.reconcile`, the orchestrator pass: when running pods equal the
membership name-for-name, read the live ensemble config; on read failure abort
with that error; on config mismatch push Reconfigure and return (its failure
aborts the pass); on config match fall through to the scaling/upgrade tail. -/
def reconcile (env : Env) (members : MemberSet) (clusterName nsp : List Char)
    (sp : ClusterSpec) (pods : List Pod) : List Eff × MemberSet × Option ZkErr :=
  let running := podsToMemberSet pods
  if MemberSet.IsEqual running members = true then
    match env.zkConfig with
    | none => ([Eff.getConfig false], members, some ZkErr.getConfigFail)
    | some zkCfg =>
      if zkCfg.length ≠ members.length ∨ zkCfg ≠ MemberSet.ClusterConfig members then
        if env.reconfigOk then
          ([Eff.getConfig true, Eff.reconfig true], members, none)
        else
          ([Eff.getConfig true, Eff.reconfig false], members, some ZkErr.reconfigFail)
      else
        match reconcileTail env members running clusterName nsp sp pods with
        | (tr, m2, e) => (Eff.getConfig true :: tr, m2, e)
  else reconcileTail env members running clusterName nsp sp pods

/-- An environment in which every external call succeeds and the ensemble
config read returns nothing (unused by `reconcileMembers`). -/
def envAllOk : Env := ⟨fun _ => true, true, true, true, none⟩

/-- Concrete member `c-<i>` in namespace `ns`, used in witnesses. -/
def mC (i : Nat) : Member := Member.mk ('c' :: '-' :: natToChars i) (strOf "ns")

theorem pruneUnknowns_allOk {env : Env} (h : ∀ n, env.removePodOk n = true) :
    ∀ l : MemberSet, pruneUnknowns env l =
      (l.map (fun m => Eff.removePod m.name true), none) := by
  intro l
  induction l with
  | nil => rfl
  | cons m rest ih =>
    rw [pruneUnknowns, if_pos (h m.name), ih]
    rfl

theorem pruneUnknowns_err (env : Env) : ∀ (l : MemberSet) {e : ZkErr},
    (pruneUnknowns env l).2 = some e → ∃ n, e = ZkErr.removePodFail n := by
  intro l
  induction l with
  | nil => intro e h; simp [pruneUnknowns] at h
  | cons m rest ih =>
    intro e h
    rw [pruneUnknowns] at h
    by_cases hok : env.removePodOk m.name = true
    · rw [if_pos hok] at h
      rcases hpr : pruneUnknowns env rest with ⟨tr2, e2⟩
      rw [hpr] at h
      exact ih (by rw [hpr]; exact h)
    · rw [if_neg hok] at h
      simp at h
      exact ⟨m.name, h.symm⟩

theorem Diff_empty_of_sub {running members : MemberSet}
    (h : ∀ p ∈ running, p.name ∈ MemberSet.names members) :
    MemberSet.Diff running members = [] := by
  rw [List.eq_nil_iff_forall_not_mem]
  intro m hm
  rw [mem_Diff] at hm
  exact hm.2 (h m hm.1)

theorem reconcileMembers_quorum_shape (env : Env) (members running : MemberSet)
    (cn nsp : List Char) (sz : Int)
    (h1 : (MemberSet.Diff running (MemberSet.Diff running members)).length <
      members.length / 2 + 1)
    (h2 : (MemberSet.Diff running (MemberSet.Diff running members)).length ≠ members.length) :
    reconcileMembers env members running cn nsp sz =
      ((pruneUnknowns env (MemberSet.Diff running members)).1, members,
        match (pruneUnknowns env (MemberSet.Diff running members)).2 with
        | some err => some err
        | none => some ZkErr.lostQuorum) := by
  simp only [reconcileMembers]
  rcases hpr : pruneUnknowns env (MemberSet.Diff running members) with ⟨tr0, e0⟩
  cases e0 with
  | some err => rfl
  | none =>
    simp only []
    rw [if_neg h2, if_pos h1]

/-- C2: whenever the surviving set `L = running.Diff(running.Diff(members))`
is strictly below the majority threshold `members.Size()/2 + 1` and does not
have the membership's size, `reconcileMembers` leaves the member set unchanged
in every environment; if every running pod's name belongs to the membership
the pass performs no effect at all and returns exactly `LostQuorum`; and under
successful pruning it returns `LostQuorum` in general.  The final conjunct is
the claim's 5-member threshold scenario with 3 running members: the pass
proceeds to replace-dead (re-adding the picked dead member) instead of losing
quorum. -/
theorem C2_quorum_guard :
    (∀ (env : Env) (members running : MemberSet) (cn nsp : List Char) (sz : Int),
      (MemberSet.Diff running (MemberSet.Diff running members)).length <
          members.length / 2 + 1 →
      (MemberSet.Diff running (MemberSet.Diff running members)).length ≠ members.length →
      ((reconcileMembers env members running cn nsp sz).2.1 = members ∧
        ((∀ p ∈ running, p.name ∈ MemberSet.names members) →
          reconcileMembers env members running cn nsp sz =
            ([], members, some ZkErr.lostQuorum)) ∧
        ((∀ n, env.removePodOk n = true) →
          (reconcileMembers env members running cn nsp sz).2.2 = some ZkErr.lostQuorum))) ∧
    ((reconcileMembers envAllOk [mC 1, mC 2, mC 3, mC 4, mC 5] [mC 1, mC 2, mC 3]
        (strOf "c") (strOf "ns") 5).2.2 ≠ some ZkErr.lostQuorum ∧
      Eff.memberAdd (strOf "c-4") ∈
        (reconcileMembers envAllOk [mC 1, mC 2, mC 3, mC 4, mC 5] [mC 1, mC 2, mC 3]
          (strOf "c") (strOf "ns") 5).1) := by
  constructor
  · intro env members running cn nsp sz h1 h2
    have hshape := reconcileMembers_quorum_shape env members running cn nsp sz h1 h2
    refine ⟨?_, ?_, ?_⟩
    · rw [hshape]
    · intro hsub
      have hempty := Diff_empty_of_sub hsub
      rw [hshape, hempty]
      rfl
    · intro hok
      rw [hshape, pruneUnknowns_allOk hok]
  · constructor
    · decide
    · decide

/-- Witness for C2 at the claim's scenario: 5 members, only `c-1`,`c-2`
running (all of them known members): the pass is exactly a no-effect
`LostQuorum` return. -/
theorem C2_quorum_guard_witness :
    reconcileMembers envAllOk [mC 1, mC 2, mC 3, mC 4, mC 5] [mC 1, mC 2]
        (strOf "c") (strOf "ns") 5 =
      ([], [mC 1, mC 2, mC 3, mC 4, mC 5], some ZkErr.lostQuorum) :=
  ((C2_quorum_guard.1 envAllOk [mC 1, mC 2, mC 3, mC 4, mC 5] [mC 1, mC 2]
      (strOf "c") (strOf "ns") 5 (by decide) (by decide)).2.1 (by decide))

/-- C4 (amended): a failed `GetClusterConfig` aborts the pass with that error
and no effect beyond the failed read; a failed top-level `ReconfigureCluster`
on config mismatch aborts the pass with that error and no pod mutation; and in
`removeMember` with a scaling event the reconfigure is issued after the member
is dropped from the set and strictly before the pod deletion — but a
reconfigure failure there is only logged: the pod deletion still happens and
only its own failure is propagated. -/
theorem C4_ensemble_error_handling :
    (∀ (env : Env) (members : MemberSet) (cn nsp : List Char) (sp : ClusterSpec)
        (pods : List Pod),
      MemberSet.IsEqual (podsToMemberSet pods) members = true →
      env.zkConfig = none →
      reconcile env members cn nsp sp pods =
        ([Eff.getConfig false], members, some ZkErr.getConfigFail)) ∧
    (∀ (env : Env) (members : MemberSet) (cn nsp : List Char) (sp : ClusterSpec)
        (pods : List Pod) (zkCfg : List (List Char)),
      MemberSet.IsEqual (podsToMemberSet pods) members = true →
      env.zkConfig = some zkCfg →
      (zkCfg.length ≠ members.length ∨ zkCfg ≠ MemberSet.ClusterConfig members) →
      env.reconfigOk = false →
      reconcile env members cn nsp sp pods =
        ([Eff.getConfig true, Eff.reconfig false], members, some ZkErr.reconfigFail)) ∧
    (∀ (env : Env) (members : MemberSet) (toRemove : Member),
      removeMember env members toRemove true =
        ([Eff.memberRemove toRemove.name, Eff.reconfig env.reconfigOk,
            Eff.removePod toRemove.name true],
          MemberSet.Remove members toRemove.name,
          if env.removePodOk toRemove.name then none
          else some (ZkErr.removePodFail toRemove.name))) := by
  refine ⟨?_, ?_, ?_⟩
  · intro env members cn nsp sp pods heq hzk
    simp only [reconcile]
    rw [if_pos heq]
    simp only [hzk]
  · intro env members cn nsp sp pods zkCfg heq hzk hmis hrc
    simp only [reconcile]
    rw [if_pos heq]
    simp only [hzk]
    rw [if_pos hmis, if_neg (by rw [hrc]; exact Bool.false_ne_true)]
  · intro env members toRemove
    rfl

/-- Witness for C4 (amended): a concrete pass whose ensemble-config read
fails is aborted with `GetClusterConfig`'s error and no mutation. -/
theorem C4_ensemble_error_handling_witness :
    reconcile (Env.mk (fun _ => true) true true true none) [mC 1] (strOf "c") (strOf "ns")
        (ClusterSpec.mk 1 (strOf "3.5.3")) [Pod.mk (strOf "c-1") (strOf "ns") (strOf "3.5.3")] =
      ([Eff.getConfig false], [mC 1], some ZkErr.getConfigFail) :=
  C4_ensemble_error_handling.1 (Env.mk (fun _ => true) true true true none) [mC 1]
    (strOf "c") (strOf "ns") (ClusterSpec.mk 1 (strOf "3.5.3"))
    [Pod.mk (strOf "c-1") (strOf "ns") (strOf "3.5.3")] (by decide) rfl

/-- C4 counterexample: a scale-down pass (members `c-1`,`c-2`, spec size 1)
in which the ensemble reconfigure fails.  The claim says a failed reconfigure
aborts the removal before any pod deletion; the code instead logs the failure,
deletes the pod anyway, and the pass reports success. -/
theorem C4_counterexample :
    reconcileMembers (Env.mk (fun _ => true) true false true none)
        [mC 1, mC 2] [mC 1, mC 2] (strOf "c") (strOf "ns") 1 =
      ([Eff.setScalingDown 2 1, Eff.memberRemove (strOf "c-1"), Eff.reconfig false,
        Eff.removePod (strOf "c-1") true], [mC 2], none) := by
  decide

/-- C3 (amended): when running pods equal the membership and the live ensemble
config differs from the members' canonical config, the pass pushes Reconfigure
and ends there with success (no scaling or upgrade effect at all); but when
the live config already matches, the pass does NOT end: it falls through to
the scaling/upgrade tail of the same tick. -/
theorem C3_config_check :
    (∀ (env : Env) (members : MemberSet) (cn nsp : List Char) (sp : ClusterSpec)
        (pods : List Pod) (zkCfg : List (List Char)),
      MemberSet.IsEqual (podsToMemberSet pods) members = true →
      env.zkConfig = some zkCfg →
      (zkCfg.length ≠ members.length ∨ zkCfg ≠ MemberSet.ClusterConfig members) →
      env.reconfigOk = true →
      reconcile env members cn nsp sp pods =
        ([Eff.getConfig true, Eff.reconfig true], members, none)) ∧
    (∀ (env : Env) (members : MemberSet) (cn nsp : List Char) (sp : ClusterSpec)
        (pods : List Pod) (zkCfg : List (List Char)),
      MemberSet.IsEqual (podsToMemberSet pods) members = true →
      env.zkConfig = some zkCfg →
      zkCfg.length = members.length → zkCfg = MemberSet.ClusterConfig members →
      reconcile env members cn nsp sp pods =
        (Eff.getConfig true ::
            (reconcileTail env members (podsToMemberSet pods) cn nsp sp pods).1,
          (reconcileTail env members (podsToMemberSet pods) cn nsp sp pods).2.1,
          (reconcileTail env members (podsToMemberSet pods) cn nsp sp pods).2.2)) := by
  constructor
  · intro env members cn nsp sp pods zkCfg heq hzk hmis hrc
    simp only [reconcile]
    rw [if_pos heq]
    simp only [hzk]
    rw [if_pos hmis, if_pos hrc]
  · intro env members cn nsp sp pods zkCfg heq hzk hlen hcfg
    simp only [reconcile]
    rw [if_pos heq]
    simp only [hzk]
    rw [if_neg (by rintro (hne | hne) <;> [exact hne hlen; exact hne hcfg])]

/-- Witness for C3 (amended) at the claim's scenario: 3 members, 3 matching
running pods, live config reporting only 2 servers → Reconfigure is pushed and
the pass returns success without any scaling/upgrade effect. -/
theorem C3_config_check_witness :
    reconcile (Env.mk (fun _ => true) true true true
        (some (MemberSet.ClusterConfig [mC 1, mC 2])))
        [mC 1, mC 2, mC 3] (strOf "c") (strOf "ns") (ClusterSpec.mk 3 (strOf "3.5.3"))
        [Pod.mk (strOf "c-1") (strOf "ns") (strOf "3.5.3"),
         Pod.mk (strOf "c-2") (strOf "ns") (strOf "3.5.3"),
         Pod.mk (strOf "c-3") (strOf "ns") (strOf "3.5.3")] =
      ([Eff.getConfig true, Eff.reconfig true], [mC 1, mC 2, mC 3], none) :=
  C3_config_check.1 (Env.mk (fun _ => true) true true true
      (some (MemberSet.ClusterConfig [mC 1, mC 2])))
    [mC 1, mC 2, mC 3] (strOf "c") (strOf "ns") (ClusterSpec.mk 3 (strOf "3.5.3"))
    [Pod.mk (strOf "c-1") (strOf "ns") (strOf "3.5.3"),
     Pod.mk (strOf "c-2") (strOf "ns") (strOf "3.5.3"),
     Pod.mk (strOf "c-3") (strOf "ns") (strOf "3.5.3")]
    (MemberSet.ClusterConfig [mC 1, mC 2])
    (by decide) rfl (by decide) rfl

/-- C3 counterexample: running = members = {c-1,c-2,c-3}, spec size 3, live
ensemble config exactly matching the members' canonical config, but pods
recorded at an old version.  The claim says a matching config ends the pass
without touching scaling or upgrade state; the code instead continues the same
tick: it clears the Scaling condition, sets UpgradeVersionTo and performs an
upgrade step. -/
theorem C3_counterexample :
    reconcile (Env.mk (fun _ => true) true true true
        (some (MemberSet.ClusterConfig [mC 1, mC 2, mC 3])))
        [mC 1, mC 2, mC 3] (strOf "c") (strOf "ns") (ClusterSpec.mk 3 (strOf "3.5.3"))
        [Pod.mk (strOf "c-1") (strOf "ns") (strOf "3.4.0"),
         Pod.mk (strOf "c-2") (strOf "ns") (strOf "3.4.0"),
         Pod.mk (strOf "c-3") (strOf "ns") (strOf "3.4.0")] =
      ([Eff.getConfig true, Eff.clearScaling, Eff.upgradeVersionTo (strOf "3.5.3"),
        Eff.upgradeMember (strOf "c-1")], [mC 1, mC 2, mC 3], none) := by
  decide

theorem pickOneOldMember_eq_none (pods : List Pod) (v : List Char) :
    pickOneOldMember pods v = none ↔ ∀ p ∈ pods, p.version = v := by
  induction pods with
  | nil => simp [pickOneOldMember]
  | cons p rest ih =>
    rw [pickOneOldMember]
    by_cases hv : (p.version == v) = true
    · rw [if_pos hv, ih]
      have hv' : p.version = v := beq_iff_eq.mp hv
      constructor
      · intro h q hq
        rcases List.mem_cons.mp hq with rfl | hq'
        · exact hv'
        · exact h q hq'
      · intro h q hq
        exact h q (List.mem_cons_of_mem p hq)
    · rw [if_neg hv]
      constructor
      · intro h
        exact absurd h (by simp)
      · intro h
        exact absurd (beq_iff_eq.mpr (h p (List.mem_cons_self p rest))) hv

/-- C8: `needUpgrade(pods, spec)` is true exactly when the pod count equals
`spec.Size` and some pod's recorded version differs from `spec.Version`; and
`pickOneOldMember` returns none exactly when every pod matches, otherwise the
first pod in listing order whose version differs. -/
theorem C8_upgrade_predicates :
    (∀ (pods : List Pod) (cs : ClusterSpec),
      needUpgrade pods cs = true ↔
        ((pods.length : Int) = cs.size ∧ ∃ p ∈ pods, p.version ≠ cs.version)) ∧
    (∀ (pods : List Pod) (v : List Char),
      pickOneOldMember pods v = none ↔ ∀ p ∈ pods, p.version = v) ∧
    (∀ (pods1 : List Pod) (p : Pod) (pods2 : List Pod) (v : List Char),
      (∀ q ∈ pods1, q.version = v) → p.version ≠ v →
      pickOneOldMember (pods1 ++ p :: pods2) v = some (Member.mk p.name p.ns)) := by
  refine ⟨?_, pickOneOldMember_eq_none, ?_⟩
  · intro pods cs
    rw [needUpgrade, Bool.and_eq_true, beq_iff_eq]
    constructor
    · rintro ⟨h1, h2⟩
      refine ⟨h1, ?_⟩
      rw [Option.isSome_iff_ne_none] at h2
      by_contra hall
      push_neg at hall
      exact h2 ((pickOneOldMember_eq_none pods cs.version).mpr hall)
    · rintro ⟨h1, p, hp, hne⟩
      refine ⟨h1, ?_⟩
      rw [Option.isSome_iff_ne_none]
      intro hn
      exact hne ((pickOneOldMember_eq_none pods cs.version).mp hn p hp)
  · intro pods1 p pods2 v hall hne
    induction pods1 with
    | nil =>
      rw [List.nil_append, pickOneOldMember,
        if_neg (fun hb => hne (beq_iff_eq.mp hb))]
    | cons q qs ih =>
      rw [List.cons_append, pickOneOldMember,
        if_pos (beq_iff_eq.mpr (hall q (List.mem_cons_self q qs)))]
      exact ih (fun r hr => hall r (List.mem_cons_of_mem q hr))

/-- Witness for C8: concrete listing where the second pod is the first stale
one; it is picked, and `needUpgrade` agrees with the characterization. -/
theorem C8_upgrade_predicates_witness :
    pickOneOldMember
        ([Pod.mk (strOf "c-1") (strOf "ns") (strOf "3.5.3")] ++
          Pod.mk (strOf "c-2") (strOf "ns") (strOf "3.4.0") ::
            [Pod.mk (strOf "c-3") (strOf "ns") (strOf "3.4.0")]) (strOf "3.5.3") =
      some (Member.mk (strOf "c-2") (strOf "ns")) :=
  C8_upgrade_predicates.2.2 [Pod.mk (strOf "c-1") (strOf "ns") (strOf "3.5.3")]
    (Pod.mk (strOf "c-2") (strOf "ns") (strOf "3.4.0"))
    [Pod.mk (strOf "c-3") (strOf "ns") (strOf "3.4.0")] (strOf "3.5.3")
    (by decide) (by decide)

theorem PickOne_none_iff (ms : MemberSet) : MemberSet.PickOne ms = none ↔ ms = [] := by
  cases ms <;> simp [MemberSet.PickOne]

theorem PickOne_mem {ms : MemberSet} {m : Member} (h : MemberSet.PickOne ms = some m) :
    m ∈ ms := by
  cases ms with
  | nil => simp [MemberSet.PickOne] at h
  | cons x xs =>
    simp [MemberSet.PickOne] at h
    exact h ▸ List.mem_cons_self x xs

theorem names_L_sub {members running : MemberSet} :
    ∀ n ∈ MemberSet.names (MemberSet.Diff running (MemberSet.Diff running members)),
      n ∈ MemberSet.names members := by
  intro n hn
  simp only [MemberSet.names, List.mem_map] at hn
  rcases hn with ⟨m, hm, rfl⟩
  rcases mem_Diff.mp hm with ⟨hmr, hmnot⟩
  by_contra hnot
  exact hmnot (List.mem_map_of_mem Member.name (mem_Diff.mpr ⟨hmr, hnot⟩))

theorem Diff_members_L_ne_nil {members running : MemberSet}
    (hndM : (MemberSet.names members).Nodup) (hndR : (MemberSet.names running).Nodup)
    (hne : (MemberSet.Diff running (MemberSet.Diff running members)).length ≠ members.length) :
    MemberSet.Diff members (MemberSet.Diff running (MemberSet.Diff running members)) ≠ [] := by
  intro hempty
  have hsub2 : ∀ n ∈ MemberSet.names members,
      n ∈ MemberSet.names (MemberSet.Diff running (MemberSet.Diff running members)) := by
    intro n hn
    simp only [MemberSet.names, List.mem_map] at hn
    rcases hn with ⟨m, hm, rfl⟩
    by_contra hnot
    have hmem : m ∈ MemberSet.Diff members
        (MemberSet.Diff running (MemberSet.Diff running members)) :=
      mem_Diff.mpr ⟨hm, hnot⟩
    rw [hempty] at hmem
    exact List.not_mem_nil m hmem
  have hndL : (MemberSet.names
      (MemberSet.Diff running (MemberSet.Diff running members))).Nodup := by
    have hsubl : List.Sublist (MemberSet.names (MemberSet.Diff running
        (MemberSet.Diff running members))) (MemberSet.names running) :=
      List.Sublist.map Member.name (List.filter_sublist running)
    exact List.Nodup.sublist hsubl hndR
  have hfin : (MemberSet.names
        (MemberSet.Diff running (MemberSet.Diff running members))).toFinset =
      (MemberSet.names members).toFinset := by
    apply Finset.Subset.antisymm
    · intro n hn
      rw [List.mem_toFinset] at hn ⊢
      exact names_L_sub n hn
    · intro n hn
      rw [List.mem_toFinset] at hn ⊢
      exact hsub2 n hn
  have hlen : (MemberSet.names
        (MemberSet.Diff running (MemberSet.Diff running members))).length =
      (MemberSet.names members).length := by
    rw [← List.toFinset_card_of_nodup hndL, ← List.toFinset_card_of_nodup hndM, hfin]
  simp only [MemberSet.names, List.length_map] at hlen
  exact hne hlen

/-- C9: `PickOne` fails exactly on the empty MemberSet, and that failure is
unreachable from the engine: under the map invariants (unique names in
`members` and `running`) and `spec.Size ≥ 1`, no run of `reconcileMembers`
(including its `resize`/`removeOneMember` and replace-dead call sites of
`PickOne`) ever produces the empty-set error. -/
theorem C9_pickone_guarded :
    (∀ ms : MemberSet, MemberSet.PickOne ms = none ↔ ms = []) ∧
    (∀ (env : Env) (members running : MemberSet) (cn nsp : List Char) (sz : Int),
      (MemberSet.names members).Nodup → (MemberSet.names running).Nodup → 1 ≤ sz →
      (reconcileMembers env members running cn nsp sz).2.2 ≠ some ZkErr.emptySet) := by
  refine ⟨PickOne_none_iff, ?_⟩
  intro env members running cn nsp sz hndM hndR hsz
  simp only [reconcileMembers]
  rcases hpr : pruneUnknowns env (MemberSet.Diff running members) with ⟨tr0, e0⟩
  cases e0 with
  | some err =>
    intro hcontra
    simp only [] at hcontra
    rcases pruneUnknowns_err env (MemberSet.Diff running members)
        (by rw [hpr]) with ⟨n, rfl⟩
    simp at hcontra
  | none =>
    simp only []
    by_cases hLeq :
        (MemberSet.Diff running (MemberSet.Diff running members)).length = members.length
    · rw [if_pos hLeq]
      simp only [resize]
      by_cases h1 : (members.length : Int) = sz
      · rw [if_pos h1]
        simp
      · rw [if_neg h1]
        by_cases h2 : (members.length : Int) < sz
        · rw [if_pos h2]
          simp only [addOneMember, addMember]
          cases env.createPodOk <;> simp
        · rw [if_neg h2]
          have hlen : 1 ≤ members.length := by omega
          rcases hm : MemberSet.PickOne members with _ | m
          · rw [(PickOne_none_iff members).mp hm] at hlen
            simp at hlen
          · simp only [removeOneMember]
            rw [hm]
            simp only [removeMember]
            cases hok : env.removePodOk m.name <;> simp
    · rw [if_neg hLeq]
      by_cases hq : (MemberSet.Diff running (MemberSet.Diff running members)).length <
          members.length / 2 + 1
      · rw [if_pos hq]
        simp
      · rw [if_neg hq]
        have hne := Diff_members_L_ne_nil hndM hndR hLeq
        rcases hd : MemberSet.PickOne (MemberSet.Diff members
            (MemberSet.Diff running (MemberSet.Diff running members))) with _ | dead
        · exact absurd ((PickOne_none_iff _).mp hd) hne
        · simp only [replaceDeadMember, removeMember, addMember]
          cases hok : env.removePodOk dead.name <;> cases hcp : env.createPodOk <;> simp

/-- Witness for C9 at a concrete converged one-member cluster. -/
theorem C9_pickone_guarded_witness :
    (reconcileMembers envAllOk [mC 1] [mC 1] (strOf "c") (strOf "ns") 1).2.2 ≠
      some ZkErr.emptySet :=
  C9_pickone_guarded.2 envAllOk [mC 1] [mC 1] (strOf "c") (strOf "ns") 1
    (by decide) (by decide) (by decide)

theorem Remove_eq_of_not_mem {ms : MemberSet} {n : List Char}
    (h : ¬ n ∈ MemberSet.names ms) : MemberSet.Remove ms n = ms := by
  induction ms with
  | nil => rfl
  | cons x xs ih =>
    have hx : ¬ x.name = n := by
      intro he
      exact h (he ▸ List.mem_map_of_mem Member.name (List.mem_cons_self x xs))
    have hxs : ¬ n ∈ MemberSet.names xs := by
      intro hm
      simp only [MemberSet.names, List.mem_map] at hm h
      rcases hm with ⟨y, hy, hyn⟩
      exact h ⟨y, List.mem_cons_of_mem x hy, hyn⟩
    rw [MemberSet.Remove, List.filter_cons]
    have : (!(x.name == n)) = true := by simp [hx]
    rw [this]
    simp only [if_true]
    rw [← MemberSet.Remove, ih hxs]

theorem Remove_length {ms : MemberSet} {n : List Char}
    (hnd : (MemberSet.names ms).Nodup) (hmem : n ∈ MemberSet.names ms) :
    (MemberSet.Remove ms n).length + 1 = ms.length := by
  induction ms with
  | nil => simp [MemberSet.names] at hmem
  | cons x xs ih =>
    rw [MemberSet.names, List.map_cons, List.nodup_cons] at hnd
    rw [MemberSet.names, List.map_cons, List.mem_cons] at hmem
    rcases hmem with heq | hmem'
    · rw [MemberSet.Remove, List.filter_cons]
      have : (!(x.name == n)) = false := by simp [heq]
      rw [this]
      simp only [Bool.false_eq_true, if_false]
      rw [← MemberSet.Remove, Remove_eq_of_not_mem (heq ▸ hnd.1)]
      simp
    · have hx : ¬ x.name = n := by
        intro he
        exact hnd.1 (he ▸ hmem')
      rw [MemberSet.Remove, List.filter_cons]
      have : (!(x.name == n)) = true := by simp [hx]
      rw [this]
      simp only [if_true]
      rw [← MemberSet.Remove, List.length_cons, List.length_cons]
      rw [← ih hnd.2 hmem']

theorem not_mem_names_Remove (ms : MemberSet) (n : List Char) :
    ¬ n ∈ MemberSet.names (MemberSet.Remove ms n) := by
  intro h
  simp only [MemberSet.names, List.mem_map] at h
  rcases h with ⟨x, hx, hxn⟩
  have hf := (List.mem_filter.mp hx).2
  rw [hxn] at hf
  simp at hf

theorem Add_length_of_not_mem {ms : MemberSet} {m : Member}
    (h : ¬ m.name ∈ MemberSet.names ms) :
    (MemberSet.Add ms m).length = ms.length + 1 := by
  rw [MemberSet.Add, if_neg (by simp [containsName_false h])]
  simp

theorem ID_of_name_append (cn nsp : List Char) (k : Nat) :
    Member.ID (Member.mk (cn ++ '-' :: natToChars k) nsp) = k := by
  have hnd : ¬ '-' ∈ natToChars k := by
    intro h
    have := natToChars_mem_digits k '-' h
    revert this; decide
  show atoiNat ((splitOnChar '-' (cn ++ '-' :: natToChars k)).getLastD []) = k
  rw [splitOnChar_getLastD _ hnd, atoiNat_natToChars]

theorem foldl_max_le_acc : ∀ (ms : MemberSet) (acc : Nat),
    acc ≤ ms.foldl (fun a m => max a (Member.ID m)) acc := by
  intro ms
  induction ms with
  | nil => intro acc; simp
  | cons x xs ih =>
    intro acc
    rw [List.foldl_cons]
    exact le_trans (le_max_left acc (Member.ID x)) (ih (max acc (Member.ID x)))

theorem foldl_max_ge_mem : ∀ (ms : MemberSet) (m : Member), m ∈ ms → ∀ acc : Nat,
    Member.ID m ≤ ms.foldl (fun a x => max a (Member.ID x)) acc := by
  intro ms
  induction ms with
  | nil => intro m h; exact absurd h (List.not_mem_nil m)
  | cons x xs ih =>
    intro m h acc
    rw [List.foldl_cons]
    rcases List.mem_cons.mp h with rfl | h'
    · exact le_trans (le_max_right acc (Member.ID m)) (foldl_max_le_acc xs _)
    · exact ih m h' _

theorem newMember_fresh (cn nsp : List Char) (ms : MemberSet) :
    ¬ (newMember cn nsp ms).name ∈ MemberSet.names ms := by
  intro h
  simp only [MemberSet.names, List.mem_map] at h
  rcases h with ⟨x, hx, hxn⟩
  have hid : Member.ID x = MemberSet.MaxMemberID ms + 1 := by
    have hidn : Member.ID x =
        Member.ID (Member.mk (newMember cn nsp ms).name x.ns) := by
      rw [Member.ID, Member.ID, hxn]
    rw [hidn]
    show Member.ID (Member.mk (cn ++ '-' :: natToChars (MemberSet.MaxMemberID ms + 1)) x.ns) =
      MemberSet.MaxMemberID ms + 1
    rw [ID_of_name_append]
  have hle := foldl_max_ge_mem ms x hx 0
  rw [MemberSet.MaxMemberID] at hid
  omega

theorem reconcileMembers_resize_shape {env : Env} {members running : MemberSet}
    {cn nsp : List Char} {sz : Int} {P : List Eff}
    (h : (MemberSet.Diff running (MemberSet.Diff running members)).length = members.length)
    (hpr : pruneUnknowns env (MemberSet.Diff running members) = (P, none)) :
    reconcileMembers env members running cn nsp sz =
      (P ++ (resize env members cn nsp sz).1,
        (resize env members cn nsp sz).2.1, (resize env members cn nsp sz).2.2) := by
  simp only [reconcileMembers]
  rcases hpr2 : pruneUnknowns env (MemberSet.Diff running members) with ⟨tr0, e0⟩
  rw [hpr2] at hpr
  obtain ⟨rfl, rfl⟩ := Prod.mk.injEq .. |>.mp hpr
  simp only []
  rw [if_pos h]

theorem reconcileMembers_replace_shape {env : Env} {members running : MemberSet}
    {cn nsp : List Char} {sz : Int} {P : List Eff} {dead : Member}
    (h1 : (MemberSet.Diff running (MemberSet.Diff running members)).length ≠ members.length)
    (h2 : ¬ (MemberSet.Diff running (MemberSet.Diff running members)).length <
      members.length / 2 + 1)
    (hd : MemberSet.PickOne (MemberSet.Diff members
      (MemberSet.Diff running (MemberSet.Diff running members))) = some dead)
    (hpr : pruneUnknowns env (MemberSet.Diff running members) = (P, none)) :
    reconcileMembers env members running cn nsp sz =
      (P ++ (replaceDeadMember env members dead).1,
        (replaceDeadMember env members dead).2.1,
        (replaceDeadMember env members dead).2.2) := by
  simp only [reconcileMembers]
  rcases hpr2 : pruneUnknowns env (MemberSet.Diff running members) with ⟨tr0, e0⟩
  rw [hpr2] at hpr
  obtain ⟨rfl, rfl⟩ := Prod.mk.injEq .. |>.mp hpr
  simp only []
  rw [if_neg h1, if_neg h2, hd]

/-- Marker predicate: a trace effect that inserts a member into the set. -/
def isMemberAddEff : Eff → Bool
  | Eff.memberAdd _ => true
  | _ => false

/-- Marker predicate: a trace effect that removes a member from the set. -/
def isMemberRemoveEff : Eff → Bool
  | Eff.memberRemove _ => true
  | _ => false

theorem pruneUnknowns_eff_shape (env : Env) : ∀ (l : MemberSet) (e : Eff),
    e ∈ (pruneUnknowns env l).1 → ∃ n b, e = Eff.removePod n b := by
  intro l
  induction l with
  | nil => intro e h; simp [pruneUnknowns] at h
  | cons m rest ih =>
    intro e h
    rw [pruneUnknowns] at h
    by_cases hok : env.removePodOk m.name = true
    · rw [if_pos hok] at h
      rcases hpr : pruneUnknowns env rest with ⟨tr2, e2⟩
      rw [hpr] at h
      rcases List.mem_cons.mp h with rfl | h'
      · exact ⟨m.name, true, rfl⟩
      · exact ih e (by rw [hpr]; exact h')
    · rw [if_neg hok] at h
      rcases List.mem_cons.mp h with rfl | h'
      · exact ⟨m.name, true, rfl⟩
      · exact absurd h' (List.not_mem_nil e)

theorem pruneUnknowns_filter_add (env : Env) (l : MemberSet) :
    ((pruneUnknowns env l).1).filter isMemberAddEff = [] := by
  rw [List.filter_eq_nil_iff]
  intro e he
  rcases pruneUnknowns_eff_shape env l e he with ⟨n, b, rfl⟩
  have hf : isMemberAddEff (Eff.removePod n b) = false := rfl
  simp [hf]

theorem pruneUnknowns_filter_remove (env : Env) (l : MemberSet) :
    ((pruneUnknowns env l).1).filter isMemberRemoveEff = [] := by
  rw [List.filter_eq_nil_iff]
  intro e he
  rcases pruneUnknowns_eff_shape env l e he with ⟨n, b, rfl⟩
  have hf : isMemberRemoveEff (Eff.removePod n b) = false := rfl
  simp [hf]

theorem reconcileMembers_prune_fail_shape (env : Env) (members running : MemberSet)
    (cn nsp : List Char) (sz : Int) {P : List Eff} {err : ZkErr}
    (hpr : pruneUnknowns env (MemberSet.Diff running members) = (P, some err)) :
    reconcileMembers env members running cn nsp sz = (P, members, some err) := by
  simp only [reconcileMembers]
  rcases hpr2 : pruneUnknowns env (MemberSet.Diff running members) with ⟨tr0, e0⟩
  rw [hpr2] at hpr
  obtain ⟨rfl, rfl⟩ := Prod.mk.injEq .. |>.mp hpr
  rfl

theorem reconcileMembers_replace_none_shape {env : Env} {members running : MemberSet}
    {cn nsp : List Char} {sz : Int} {P : List Eff}
    (h1 : (MemberSet.Diff running (MemberSet.Diff running members)).length ≠ members.length)
    (h2 : ¬ (MemberSet.Diff running (MemberSet.Diff running members)).length <
      members.length / 2 + 1)
    (hd : MemberSet.PickOne (MemberSet.Diff members
      (MemberSet.Diff running (MemberSet.Diff running members))) = none)
    (hpr : pruneUnknowns env (MemberSet.Diff running members) = (P, none)) :
    reconcileMembers env members running cn nsp sz = (P, members, some ZkErr.emptySet) := by
  simp only [reconcileMembers]
  rcases hpr2 : pruneUnknowns env (MemberSet.Diff running members) with ⟨tr0, e0⟩
  rw [hpr2] at hpr
  obtain ⟨rfl, rfl⟩ := Prod.mk.injEq .. |>.mp hpr
  simp only []
  rw [if_neg h1, if_neg h2, hd]

/-- C1 (amended): in every environment, one invocation of the
quorum-and-scaling engine (`reconcileMembers` with `resize`) performs at most
one member add and at most one member remove; when both occur in a pass they
target the same member name (the dead-member replace, which re-adds the
removed name).  Consequently `members.Size()` changes by at most one per
pass, and on a pass that returns success the change is strictly toward
`spec.Size`: up by one only when it was below, down by one only when it was
above.  (A pass that fails while replacing a dead member — the member already
dropped from the set, its pod deletion failed — shrinks the set by one
regardless of spec.Size and surfaces that error.)  The pruning of unknown
pods is NOT limited to one: every unknown pod is deleted, possibly alongside
the single scaling action (see the counterexample). -/
theorem C1_single_mutation :
    ∀ (env : Env) (members running : MemberSet) (cn nsp : List Char) (sz : Int),
      (MemberSet.names members).Nodup →
      ((((reconcileMembers env members running cn nsp sz).1.filter
            isMemberAddEff).length ≤ 1 ∧
        ((reconcileMembers env members running cn nsp sz).1.filter
            isMemberRemoveEff).length ≤ 1) ∧
       (∀ na nr, Eff.memberAdd na ∈ (reconcileMembers env members running cn nsp sz).1 →
          Eff.memberRemove nr ∈ (reconcileMembers env members running cn nsp sz).1 →
          na = nr) ∧
       (((reconcileMembers env members running cn nsp sz).2.1.length : Int) -
            members.length ≤ 1 ∧
         (members.length : Int) -
            (reconcileMembers env members running cn nsp sz).2.1.length ≤ 1) ∧
       ((reconcileMembers env members running cn nsp sz).2.2 = none →
          (reconcileMembers env members running cn nsp sz).2.1.length ≠ members.length →
          ((members.length : Int) < sz ∧
            (reconcileMembers env members running cn nsp sz).2.1.length =
              members.length + 1) ∨
          (sz < (members.length : Int) ∧
            members.length =
              (reconcileMembers env members running cn nsp sz).2.1.length + 1))) := by
  intro env members running cn nsp sz hnd
  rcases hpr : pruneUnknowns env (MemberSet.Diff running members) with ⟨P, e0⟩
  have hPadd : P.filter isMemberAddEff = [] := by
    have h := pruneUnknowns_filter_add env (MemberSet.Diff running members)
    rw [hpr] at h
    exact h
  have hPrem : P.filter isMemberRemoveEff = [] := by
    have h := pruneUnknowns_filter_remove env (MemberSet.Diff running members)
    rw [hpr] at h
    exact h
  have hPnoadd : ∀ na, ¬ Eff.memberAdd na ∈ P := by
    intro na h
    rcases pruneUnknowns_eff_shape env (MemberSet.Diff running members)
        (Eff.memberAdd na) (by rw [hpr]; exact h) with ⟨n, b, heq⟩
    exact absurd heq (by simp)
  have hPnorem : ∀ nr, ¬ Eff.memberRemove nr ∈ P := by
    intro nr h
    rcases pruneUnknowns_eff_shape env (MemberSet.Diff running members)
        (Eff.memberRemove nr) (by rw [hpr]; exact h) with ⟨n, b, heq⟩
    exact absurd heq (by simp)
  cases e0 with
  | some err =>
    rw [reconcileMembers_prune_fail_shape env members running cn nsp sz hpr]
    refine ⟨⟨?_, ?_⟩, ?_, ⟨?_, ?_⟩, ?_⟩
    · show (P.filter isMemberAddEff).length ≤ 1
      rw [hPadd]
      simp
    · show (P.filter isMemberRemoveEff).length ≤ 1
      rw [hPrem]
      simp
    · intro na nr ha hr
      exact absurd ha (hPnoadd na)
    · simp
    · simp
    · intro herr
      have herr' : some err = (none : Option ZkErr) := herr
      exact Option.noConfusion herr'
  | none =>
    by_cases hLeq :
        (MemberSet.Diff running (MemberSet.Diff running members)).length = members.length
    · rw [reconcileMembers_resize_shape hLeq hpr]
      by_cases h1 : (members.length : Int) = sz
      · have hrs : resize env members cn nsp sz = ([], members, none) := by
          simp only [resize]
          rw [if_pos h1]
        rw [hrs]
        refine ⟨⟨?_, ?_⟩, ?_, ⟨?_, ?_⟩, ?_⟩
        · show ((P ++ []).filter isMemberAddEff).length ≤ 1
          rw [List.filter_append, hPadd]
          simp
        · show ((P ++ []).filter isMemberRemoveEff).length ≤ 1
          rw [List.filter_append, hPrem]
          simp
        · intro na nr ha hr
          have ha' : Eff.memberAdd na ∈ P ++ [] := ha
          rw [List.append_nil] at ha'
          exact absurd ha' (hPnoadd na)
        · simp
        · simp
        · intro herr hne
          exact absurd rfl hne
      · by_cases h2 : (members.length : Int) < sz
        · have hrs : resize env members cn nsp sz =
              ([Eff.setScalingUp members.length sz,
                Eff.memberAdd (newMember cn nsp members).name,
                Eff.createPod (newMember cn nsp members).name (strOf "new")],
                MemberSet.Add members (newMember cn nsp members),
                if env.createPodOk = true then none
                else some (ZkErr.createPodFail (newMember cn nsp members).name)) := by
            simp only [resize]
            rw [if_neg h1, if_pos h2]
            rfl
          rw [hrs]
          have hlen2 : (MemberSet.Add members (newMember cn nsp members)).length =
              members.length + 1 :=
            Add_length_of_not_mem (newMember_fresh cn nsp members)
          refine ⟨⟨?_, ?_⟩, ?_, ⟨?_, ?_⟩, ?_⟩
          · show ((P ++ [Eff.setScalingUp members.length sz,
                Eff.memberAdd (newMember cn nsp members).name,
                Eff.createPod (newMember cn nsp members).name
                  (strOf "new")]).filter isMemberAddEff).length ≤ 1
            rw [List.filter_append, hPadd]
            have hft : ([Eff.setScalingUp members.length sz,
                Eff.memberAdd (newMember cn nsp members).name,
                Eff.createPod (newMember cn nsp members).name (strOf "new")]).filter
                  isMemberAddEff = [Eff.memberAdd (newMember cn nsp members).name] := rfl
            rw [hft]
            simp
          · show ((P ++ [Eff.setScalingUp members.length sz,
                Eff.memberAdd (newMember cn nsp members).name,
                Eff.createPod (newMember cn nsp members).name
                  (strOf "new")]).filter isMemberRemoveEff).length ≤ 1
            rw [List.filter_append, hPrem]
            have hft : ([Eff.setScalingUp members.length sz,
                Eff.memberAdd (newMember cn nsp members).name,
                Eff.createPod (newMember cn nsp members).name (strOf "new")]).filter
                  isMemberRemoveEff = [] := rfl
            rw [hft]
            simp
          · intro na nr ha hr
            have hr' : Eff.memberRemove nr ∈ P ++ [Eff.setScalingUp members.length sz,
                Eff.memberAdd (newMember cn nsp members).name,
                Eff.createPod (newMember cn nsp members).name (strOf "new")] := hr
            rw [List.mem_append] at hr'
            rcases hr' with h | h
            · exact absurd h (hPnorem nr)
            · simp at h
          · show ((MemberSet.Add members (newMember cn nsp members)).length : Int) -
              members.length ≤ 1
            rw [hlen2]
            push_cast
            omega
          · show (members.length : Int) -
              (MemberSet.Add members (newMember cn nsp members)).length ≤ 1
            rw [hlen2]
            push_cast
            omega
          · intro herr hne
            left
            refine ⟨h2, ?_⟩
            show (MemberSet.Add members (newMember cn nsp members)).length =
              members.length + 1
            exact hlen2
        · rcases hm : MemberSet.PickOne members with _ | m
          · have hrs : resize env members cn nsp sz =
                ([Eff.setScalingDown members.length sz], members, some ZkErr.emptySet) := by
              simp only [resize]
              rw [if_neg h1, if_neg h2]
              simp only [removeOneMember]
              rw [hm]
            rw [hrs]
            refine ⟨⟨?_, ?_⟩, ?_, ⟨?_, ?_⟩, ?_⟩
            · show ((P ++ [Eff.setScalingDown members.length sz]).filter
                  isMemberAddEff).length ≤ 1
              rw [List.filter_append, hPadd]
              have hft : ([Eff.setScalingDown members.length sz]).filter
                  isMemberAddEff = [] := rfl
              rw [hft]
              simp
            · show ((P ++ [Eff.setScalingDown members.length sz]).filter
                  isMemberRemoveEff).length ≤ 1
              rw [List.filter_append, hPrem]
              have hft : ([Eff.setScalingDown members.length sz]).filter
                  isMemberRemoveEff = [] := rfl
              rw [hft]
              simp
            · intro na nr ha hr
              have ha' : Eff.memberAdd na ∈ P ++ [Eff.setScalingDown members.length sz] := ha
              rw [List.mem_append] at ha'
              rcases ha' with h | h
              · exact absurd h (hPnoadd na)
              · simp at h
            · simp
            · simp
            · intro herr
              have herr' : some ZkErr.emptySet = (none : Option ZkErr) := herr
              exact Option.noConfusion herr'
          · have hmem : m.name ∈ MemberSet.names members :=
              List.mem_map_of_mem Member.name (PickOne_mem hm)
            have hRl := Remove_length hnd hmem
            have hrs : resize env members cn nsp sz =
                ([Eff.setScalingDown members.length sz, Eff.memberRemove m.name,
                  Eff.reconfig env.reconfigOk, Eff.removePod m.name true],
                  MemberSet.Remove members m.name,
                  if env.removePodOk m.name = true then none
                  else some (ZkErr.removePodFail m.name)) := by
              simp only [resize]
              rw [if_neg h1, if_neg h2]
              simp only [removeOneMember]
              rw [hm]
              rfl
            rw [hrs]
            refine ⟨⟨?_, ?_⟩, ?_, ⟨?_, ?_⟩, ?_⟩
            · show ((P ++ [Eff.setScalingDown members.length sz, Eff.memberRemove m.name,
                  Eff.reconfig env.reconfigOk, Eff.removePod m.name true]).filter
                    isMemberAddEff).length ≤ 1
              rw [List.filter_append, hPadd]
              have hft : ([Eff.setScalingDown members.length sz, Eff.memberRemove m.name,
                  Eff.reconfig env.reconfigOk, Eff.removePod m.name true]).filter
                    isMemberAddEff = [] := rfl
              rw [hft]
              simp
            · show ((P ++ [Eff.setScalingDown members.length sz, Eff.memberRemove m.name,
                  Eff.reconfig env.reconfigOk, Eff.removePod m.name true]).filter
                    isMemberRemoveEff).length ≤ 1
              rw [List.filter_append, hPrem]
              have hft : ([Eff.setScalingDown members.length sz, Eff.memberRemove m.name,
                  Eff.reconfig env.reconfigOk, Eff.removePod m.name true]).filter
                    isMemberRemoveEff = [Eff.memberRemove m.name] := rfl
              rw [hft]
              simp
            · intro na nr ha hr
              have ha' : Eff.memberAdd na ∈ P ++ [Eff.setScalingDown members.length sz,
                  Eff.memberRemove m.name, Eff.reconfig env.reconfigOk,
                  Eff.removePod m.name true] := ha
              rw [List.mem_append] at ha'
              rcases ha' with h | h
              · exact absurd h (hPnoadd na)
              · simp at h
            · show ((MemberSet.Remove members m.name).length : Int) - members.length ≤ 1
              omega
            · show (members.length : Int) - (MemberSet.Remove members m.name).length ≤ 1
              omega
            · intro herr hne
              right
              constructor
              · omega
              · show members.length = (MemberSet.Remove members m.name).length + 1
                omega
    · by_cases hq : (MemberSet.Diff running (MemberSet.Diff running members)).length <
          members.length / 2 + 1
      · have hsh := reconcileMembers_quorum_shape env members running cn nsp sz hq hLeq
        rw [hsh, hpr]
        refine ⟨⟨?_, ?_⟩, ?_, ⟨?_, ?_⟩, ?_⟩
        · show (P.filter isMemberAddEff).length ≤ 1
          rw [hPadd]
          simp
        · show (P.filter isMemberRemoveEff).length ≤ 1
          rw [hPrem]
          simp
        · intro na nr ha hr
          exact absurd ha (hPnoadd na)
        · simp
        · simp
        · intro herr
          have herr' : some ZkErr.lostQuorum = (none : Option ZkErr) := herr
          exact Option.noConfusion herr'
      · rcases hd : MemberSet.PickOne (MemberSet.Diff members
            (MemberSet.Diff running (MemberSet.Diff running members))) with _ | dead
        · rw [reconcileMembers_replace_none_shape hLeq hq hd hpr]
          refine ⟨⟨?_, ?_⟩, ?_, ⟨?_, ?_⟩, ?_⟩
          · show (P.filter isMemberAddEff).length ≤ 1
            rw [hPadd]
            simp
          · show (P.filter isMemberRemoveEff).length ≤ 1
            rw [hPrem]
            simp
          · intro na nr ha hr
            exact absurd ha (hPnoadd na)
          · simp
          · simp
          · intro herr
            have herr' : some ZkErr.emptySet = (none : Option ZkErr) := herr
            exact Option.noConfusion herr'
        · have hdead : dead ∈ members := (mem_Diff.mp (PickOne_mem hd)).1
          have hmem : dead.name ∈ MemberSet.names members :=
            List.mem_map_of_mem Member.name hdead
          have hRl := Remove_length hnd hmem
          rw [reconcileMembers_replace_shape hLeq hq hd hpr]
          by_cases hok : env.removePodOk dead.name = true
          · have hAl : (MemberSet.Add (MemberSet.Remove members dead.name) dead).length =
                (MemberSet.Remove members dead.name).length + 1 :=
              Add_length_of_not_mem (not_mem_names_Remove members dead.name)
            have hrd : replaceDeadMember env members dead =
                ([Eff.memberRemove dead.name, Eff.removePod dead.name false,
                  Eff.memberAdd dead.name, Eff.createPod dead.name (strOf "replacement")],
                  MemberSet.Add (MemberSet.Remove members dead.name) dead,
                  if env.createPodOk = true then none
                  else some (ZkErr.createPodFail dead.name)) := by
              simp [replaceDeadMember, removeMember, addMember, hok]
            rw [hrd]
            refine ⟨⟨?_, ?_⟩, ?_, ⟨?_, ?_⟩, ?_⟩
            · show ((P ++ [Eff.memberRemove dead.name, Eff.removePod dead.name false,
                  Eff.memberAdd dead.name,
                  Eff.createPod dead.name (strOf "replacement")]).filter
                    isMemberAddEff).length ≤ 1
              rw [List.filter_append, hPadd]
              have hft : ([Eff.memberRemove dead.name, Eff.removePod dead.name false,
                  Eff.memberAdd dead.name,
                  Eff.createPod dead.name (strOf "replacement")]).filter isMemberAddEff =
                    [Eff.memberAdd dead.name] := rfl
              rw [hft]
              simp
            · show ((P ++ [Eff.memberRemove dead.name, Eff.removePod dead.name false,
                  Eff.memberAdd dead.name,
                  Eff.createPod dead.name (strOf "replacement")]).filter
                    isMemberRemoveEff).length ≤ 1
              rw [List.filter_append, hPrem]
              have hft : ([Eff.memberRemove dead.name, Eff.removePod dead.name false,
                  Eff.memberAdd dead.name,
                  Eff.createPod dead.name (strOf "replacement")]).filter isMemberRemoveEff =
                    [Eff.memberRemove dead.name] := rfl
              rw [hft]
              simp
            · intro na nr ha hr
              have ha' : Eff.memberAdd na ∈ P ++ [Eff.memberRemove dead.name,
                  Eff.removePod dead.name false, Eff.memberAdd dead.name,
                  Eff.createPod dead.name (strOf "replacement")] := ha
              have hr' : Eff.memberRemove nr ∈ P ++ [Eff.memberRemove dead.name,
                  Eff.removePod dead.name false, Eff.memberAdd dead.name,
                  Eff.createPod dead.name (strOf "replacement")] := hr
              rw [List.mem_append] at ha' hr'
              rcases ha' with h | h
              · exact absurd h (hPnoadd na)
              · rcases hr' with h' | h'
                · exact absurd h' (hPnorem nr)
                · simp at h h'
                  rw [h, h']
            · show ((MemberSet.Add (MemberSet.Remove members dead.name) dead).length : Int) -
                members.length ≤ 1
              rw [hAl]
              omega
            · show (members.length : Int) -
                (MemberSet.Add (MemberSet.Remove members dead.name) dead).length ≤ 1
              rw [hAl]
              omega
            · intro herr hne
              have hfin : (MemberSet.Add (MemberSet.Remove members dead.name) dead).length =
                  members.length := by
                rw [hAl]
                omega
              exact absurd hfin hne
          · have hok' : env.removePodOk dead.name = false := by
              cases hcb : env.removePodOk dead.name
              · rfl
              · exact absurd hcb hok
            have hrd : replaceDeadMember env members dead =
                ([Eff.memberRemove dead.name, Eff.removePod dead.name false],
                  MemberSet.Remove members dead.name,
                  some (ZkErr.removePodFail dead.name)) := by
              simp [replaceDeadMember, removeMember, hok']
            rw [hrd]
            refine ⟨⟨?_, ?_⟩, ?_, ⟨?_, ?_⟩, ?_⟩
            · show ((P ++ [Eff.memberRemove dead.name,
                  Eff.removePod dead.name false]).filter isMemberAddEff).length ≤ 1
              rw [List.filter_append, hPadd]
              have hft : ([Eff.memberRemove dead.name,
                  Eff.removePod dead.name false]).filter isMemberAddEff = [] := rfl
              rw [hft]
              simp
            · show ((P ++ [Eff.memberRemove dead.name,
                  Eff.removePod dead.name false]).filter isMemberRemoveEff).length ≤ 1
              rw [List.filter_append, hPrem]
              have hft : ([Eff.memberRemove dead.name,
                  Eff.removePod dead.name false]).filter isMemberRemoveEff =
                    [Eff.memberRemove dead.name] := rfl
              rw [hft]
              simp
            · intro na nr ha hr
              have ha' : Eff.memberAdd na ∈ P ++ [Eff.memberRemove dead.name,
                  Eff.removePod dead.name false] := ha
              rw [List.mem_append] at ha'
              rcases ha' with h | h
              · exact absurd h (hPnoadd na)
              · simp at h
            · show ((MemberSet.Remove members dead.name).length : Int) - members.length ≤ 1
              omega
            · show (members.length : Int) - (MemberSet.Remove members dead.name).length ≤ 1
              omega
            · intro herr
              have herr' : some (ZkErr.removePodFail dead.name) = (none : Option ZkErr) :=
                herr
              exact Option.noConfusion herr'

/-- Witness for C1 (amended) at a concrete scale-up pass, discharging the
unique-name hypothesis. -/
theorem C1_single_mutation_witness :
    ((reconcileMembers envAllOk [mC 1] [mC 1] (strOf "c") (strOf "ns") 3).2.1.length : Int) -
        ([mC 1] : MemberSet).length ≤ 1 :=
  (C1_single_mutation envAllOk [mC 1] [mC 1] (strOf "c") (strOf "ns") 3 (by decide)).2.2.1.1

/-- C1 counterexample: one invocation with two unknown pods (`u-9`, `u-8`) and
members below spec size performs THREE actions: it prunes both unknown pods
and additionally adds member `c-2` — the claim's "at most one of {add, remove,
replace, prune-one-unknown} per invocation" does not hold. -/
theorem C1_counterexample :
    reconcileMembers envAllOk [mC 1]
        [mC 1, Member.mk (strOf "u-9") (strOf "ns"), Member.mk (strOf "u-8") (strOf "ns")]
        (strOf "c") (strOf "ns") 2 =
      ([Eff.removePod (strOf "u-9") true, Eff.removePod (strOf "u-8") true,
        Eff.setScalingUp 1 2, Eff.memberAdd (strOf "c-2"),
        Eff.createPod (strOf "c-2") (strOf "new")],
        [mC 1, mC 2], none) := by
  decide

end ZkOp
